import Mathlib

/-!
A verification development for the dbslice extraction engine.

The definitions below are a shallow embedding of the Python sources under
`src/dbslice/`: the data model (`models.py`), the deterministic anonymizer
(`utils/anonymizer.py`), the WHERE-clause safety filter (`config.py`), the
graph traverser (`core/graph.py`), cycle resolution and topological ordering
(`core/cycles.py`, `core/engine.py`), primary-key batching in the PostgreSQL
adapter (`adapters/postgresql.py`), and the streaming-vs-in-memory emission
decision (`core/engine.py`, `core/streaming.py`).

Python dicts are modelled as insertion-ordered association lists, Python sets
of primary-key tuples as `Finset (List Int)`, and Python's unordered set
iteration as list order (noted where it matters).  Database access is
abstracted by row-level fetch functions passed as parameters; exceptions are
modelled with `Option`/`Except`.  Logging, progress callbacks and profiling
are omitted.
-/

namespace Dbslice

/-- A primary-key tuple (a row identity).  Components are modelled as `Int`. -/
abbrev Ident := List Int

/-- A Python value as seen by the anonymizer: `None`, a string, or an int. -/
inductive PyValue where
  | vnone : PyValue
  | vstr : String → PyValue
  | vint : Int → PyValue
deriving DecidableEq, Repr

/-- Python `str(value)` for the values we model. -/
def pyStr : PyValue → String
  | .vnone => "None"
  | .vstr s => s
  | .vint n => toString n

/-- `models.ForeignKey`: a foreign-key relationship. -/
structure ForeignKey where
  name : String
  source_table : String
  source_columns : List String
  target_table : String
  target_columns : List String
  is_nullable : Bool
deriving DecidableEq, Repr

/-- `ForeignKey.is_self_referential`. -/
def ForeignKey.is_self_referential (fk : ForeignKey) : Bool :=
  fk.source_table = fk.target_table

/-- `models.VirtualForeignKey`: a user-configured FK, not from the catalog. -/
structure VirtualForeignKey where
  name : String
  source_table : String
  source_columns : List String
  target_table : String
  target_columns : List String
  description : String
  is_nullable : Bool := true
deriving DecidableEq, Repr

/-- `VirtualForeignKey.to_foreign_key`. -/
def VirtualForeignKey.to_foreign_key (vfk : VirtualForeignKey) : ForeignKey :=
  { name := vfk.name
    source_table := vfk.source_table
    source_columns := vfk.source_columns
    target_table := vfk.target_table
    target_columns := vfk.target_columns
    is_nullable := vfk.is_nullable }

/-- `models.Table` (the `columns` list is omitted: no modelled code path
reads it — only `primary_key` and `foreign_keys` are consulted). -/
structure Table where
  name : String
  primary_key : List String
  foreign_keys : List ForeignKey
deriving DecidableEq, Repr

/-- `models.SchemaGraph`: tables keyed by name (insertion-ordered dict),
real FK edges, and virtual FK edges. -/
structure SchemaGraph where
  tables : List (String × Table)
  edges : List ForeignKey
  virtual_edges : List VirtualForeignKey
deriving DecidableEq, Repr

/-- `SchemaGraph.get_table`. -/
def SchemaGraph.get_table (s : SchemaGraph) (name : String) : Option Table :=
  (s.tables.find? (fun p => p.1 = name)).map (·.2)

/-- `SchemaGraph.has_table`. -/
def SchemaGraph.has_table (s : SchemaGraph) (name : String) : Bool :=
  s.tables.any (fun p => p.1 = name)

/-- `SchemaGraph.get_parents`: edges where `table` is the source, real edges
first, then virtual edges converted by `to_foreign_key`. -/
def SchemaGraph.get_parents (s : SchemaGraph) (table : String) :
    List (String × ForeignKey) :=
  (s.edges.filter (fun fk => fk.source_table = table)).map
      (fun fk => (fk.target_table, fk))
    ++ (s.virtual_edges.filter (fun vfk => vfk.source_table = table)).map
      (fun vfk => (vfk.target_table, vfk.to_foreign_key))

/-- `SchemaGraph.get_children`: edges where `table` is the target. -/
def SchemaGraph.get_children (s : SchemaGraph) (table : String) :
    List (String × ForeignKey) :=
  (s.edges.filter (fun fk => fk.target_table = table)).map
      (fun fk => (fk.source_table, fk))
    ++ (s.virtual_edges.filter (fun vfk => vfk.target_table = table)).map
      (fun vfk => (vfk.source_table, vfk.to_foreign_key))

/-! ### Anonymizer (`utils/anonymizer.py`) -/

/-- `leadsWith n h` : `n` is an initial segment of `h` (helper for substring
containment, the Python `in` operator on strings). -/
def leadsWith : List Char → List Char → Bool
  | [], _ => true
  | _ :: _, [] => false
  | a :: as, b :: bs => a = b && leadsWith as bs

/-- `hasSub n h` : needle `n` occurs inside haystack `h`
(Python `n in h` for strings). -/
def hasSub (n h : List Char) : Bool :=
  h.tails.any (leadsWith n)

/-- Python `needle in hay` for `String`s. -/
def strContains (needle hay : String) : Bool :=
  hasSub needle.data hay.data

/-- Python `str.lower()` (ASCII; column names are ASCII). -/
def lowerStr (s : String) : String :=
  String.mk (s.data.map Char.toLower)

/-- `_DEFAULT_ANONYMIZATION_PATTERNS` in source (dict) order. -/
def defaultAnonymizationPatterns : List (String × String) :=
  [("email", "email"),
   ("phone", "phone_number"), ("mobile", "phone_number"),
   ("fax", "phone_number"), ("landline", "phone_number"),
   ("name", "name"), ("first_name", "first_name"), ("last_name", "last_name"),
   ("firstname", "first_name"), ("lastname", "last_name"),
   ("full_name", "name"), ("fullname", "name"),
   ("address", "address"), ("street", "street_address"), ("city", "city"),
   ("zip", "zipcode"), ("zipcode", "zipcode"), ("postal", "zipcode"),
   ("ssn", "ssn"), ("credit_card", "credit_card_number"),
   ("card_number", "credit_card_number"), ("card", "credit_card_number"),
   ("passport", "passport_number"), ("driver_license", "driver_license"),
   ("driverlicense", "driver_license"), ("license_number", "driver_license"),
   ("iban", "iban"), ("bank_account", "bban"), ("account_number", "bban"),
   ("routing_number", "routing_number"), ("swift", "swift"),
   ("ip_address", "ipv4"), ("ipaddress", "ipv4"), ("ip", "ipv4"),
   ("ipv6", "ipv6"), ("mac_address", "mac_address"),
   ("username", "user_name"), ("user_name", "user_name"),
   ("dob", "date_of_birth"), ("date_of_birth", "date_of_birth"),
   ("birthdate", "date_of_birth"), ("birth_date", "date_of_birth"),
   ("company", "company"), ("organization", "company"),
   ("employer", "company"), ("job_title", "job"),
   ("salary", "random_int"), ("compensation", "random_int"),
   ("wage", "random_int"),
   ("url", "url"), ("website", "url"), ("domain", "domain_name")]

/-- `_SECURITY_NULL_PATTERNS` in source order. -/
def securityNullPatterns : List String :=
  ["password", "passwd", "pwd", "hash", "salt",
   "token", "secret", "api_key", "apikey",
   "access_token", "refresh_token", "oauth_token", "csrf_token",
   "session_id",
   "private_key", "privatekey", "public_key", "publickey",
   "encryption_key", "decrypt_key",
   "nonce", "signature", "certificate",
   "client_secret", "oauth_secret"]

/-- `DeterministicAnonymizer._is_foreign_key_column`: the column is in some
FK's `source_columns` for the table (false when no schema is configured). -/
def isForeignKeyColumn (schema : Option SchemaGraph) (table column : String) :
    Bool :=
  match schema with
  | none => false
  | some s =>
    match s.get_table table with
    | none => false
    | some tinfo => tinfo.foreign_keys.any (fun fk => fk.source_columns.contains column)

/-- `DeterministicAnonymizer.should_anonymize` (the `table` argument is used
for the FK check and the redact list; patterns match on the column only). -/
def shouldAnonymize (schema : Option SchemaGraph) (redactFields : List String)
    (table column : String) : Bool :=
  if isForeignKeyColumn schema table column then false
  else if redactFields.contains (table ++ "." ++ column) then true
  else defaultAnonymizationPatterns.any
    (fun p => strContains p.1 (lowerStr column))

/-- `DeterministicAnonymizer.should_null` (the `table` argument is unused in
the source as well). -/
def shouldNull (_table column : String) : Bool :=
  securityNullPatterns.any (fun p => strContains p (lowerStr column))

/-- `DeterministicAnonymizer.get_faker_method`: the first matching pattern in
dict order, defaulting to `pystr`. -/
def getFakerMethod (column : String) : String :=
  match defaultAnonymizationPatterns.find?
      (fun p => strContains p.1 (lowerStr column)) with
  | some p => p.2
  | none => "pystr"

/-- The anonymizer cache, keyed by `(str(value), column)`. -/
abbrev AnonCache := List ((String × String) × PyValue)

/-- `DeterministicAnonymizer.anonymize_value`.  `sha` abstracts the 64-bit
integer derived from the SHA-256 digest of the hash input; `faker` abstracts
the (deterministically seeded) Faker generator, as a function of the seed
integer and the Faker method name. -/
def anonymizeValue (sha : String → Nat) (faker : Nat → String → PyValue)
    (globalSeed : String) (schema : Option SchemaGraph)
    (redactFields : List String) (cache : AnonCache)
    (value : PyValue) (table column : String) : PyValue × AnonCache :=
  match value with
  | .vnone => (.vnone, cache)
  | v =>
    if shouldNull table column then (.vnone, cache)
    else if ¬ shouldAnonymize schema redactFields table column then (v, cache)
    else
      let cacheKey := (pyStr v, column)
      match (cache.find? (fun e => e.1 = cacheKey)).map (·.2) with
      | some cached => (cached, cache)
      | none =>
        let hashInput := globalSeed ++ ":" ++ column ++ ":" ++ pyStr v
        let seedInt := sha hashInput
        let anonymized := faker seedInt (getFakerMethod column)
        (anonymized, (cacheKey, anonymized) :: cache)

/-- The value `anonymize_value` synthesizes for a classified column, as a
pure function of the global seed, the column name and `str(value)`. -/
def pureAnonStr (sha : String → Nat) (faker : Nat → String → PyValue)
    (globalSeed column s : String) : PyValue :=
  faker (sha (globalSeed ++ ":" ++ column ++ ":" ++ s)) (getFakerMethod column)

/-- Every cache entry records the pure synthesized value for its key. -/
def CacheConsistent (sha : String → Nat) (faker : Nat → String → PyValue)
    (globalSeed : String) (cache : AnonCache) : Prop :=
  ∀ e ∈ cache, e.2 = pureAnonStr sha faker globalSeed e.1.2 e.1.1

/-! ### WHERE-clause safety filter (`config.validate_where_clause`)

The model operates on the NFKC-normalized clause (the Python function first
applies `unicodedata.normalize("NFKC", ...)`; NFKC is the identity on the
ASCII clauses considered here, so the model takes the normalized text as
input).  `str.upper`/`str.lower` are modelled with the ASCII
`Char.toUpper`/`Char.toLower`. -/

/-- The single-quote character (written via its code point). -/
def squote : Char := Char.ofNat 39

/-- The double-quote character (written via its code point). -/
def dquote : Char := Char.ofNat 34

/-- A one-character string holding a single quote. -/
def squoteStr : String := String.mk [squote]

/-- Matcher for the body of `re` pattern `'(?:[^']*'')*[^']*'` starting just
after the opening quote: returns the remainder after the closing quote, with
the backtracking behaviour of the Python engine (a doubled quote is consumed
as an escape if the rest still matches, otherwise its first quote closes the
literal). -/
def matchQuotedBody : List Char → Option (List Char)
  | [] => none
  | c :: rest =>
    if c = squote then
      match rest with
      | [] => some rest
      | c2 :: rest2 =>
        if c2 = squote then
          match matchQuotedBody rest2 with
          | some rem => some rem
          | none => some rest
        else some rest
    else matchQuotedBody rest

/-- Left-to-right `re.sub` scan for the single-quote pattern, with fuel (the
match consumes at least one character, so fuel `= input length` never runs
out; the fuel-0 branch is unreachable on the wrapper below). -/
def stripSingleQuotedGo : Nat → List Char → List Char
  | _, [] => []
  | 0, cs => cs
  | n + 1, c :: rest =>
    if c = squote then
      match matchQuotedBody rest with
      | some rem => squote :: squote :: stripSingleQuotedGo n rem
      | none => c :: stripSingleQuotedGo n rest
    else c :: stripSingleQuotedGo n rest

/-- `re.sub(r"'(?:[^']*'')*[^']*'", "''", s)`: collapse single-quoted string
literals (with `''` escapes) to empty `''` placeholders. -/
def stripSingleQuoted (cs : List Char) : List Char :=
  stripSingleQuotedGo cs.length cs

/-- Left-to-right `re.sub` scan for the double-quote pattern, with fuel. -/
def stripDoubleQuotedGo : Nat → List Char → List Char
  | _, [] => []
  | 0, cs => cs
  | n + 1, c :: rest =>
    if c = dquote then
      match rest.dropWhile (fun x => x != dquote) with
      | _ :: b => dquote :: dquote :: stripDoubleQuotedGo n b
      | [] => c :: stripDoubleQuotedGo n rest
    else c :: stripDoubleQuotedGo n rest

/-- `re.sub(r'"[^"]*"', '""', s)`: collapse double-quoted segments to `""`. -/
def stripDoubleQuoted (cs : List Char) : List Char :=
  stripDoubleQuotedGo cs.length cs

/-- Python regex `\w` on ASCII: letters, digits, underscore. -/
def wordChar (c : Char) : Bool :=
  c.isAlphanum || c = '_'

/-- Word-ness of an optional character (out-of-range counts as non-word). -/
def wordOpt : Option Char → Bool
  | none => false
  | some c => wordChar c

/-- Generic position-wise regex search: `p prev s` decides a match starting
at the current position, given the preceding character. -/
def searchPos (p : Option Char → List Char → Bool) :
    Option Char → List Char → Bool
  | prev, s =>
    p prev s ||
      match s with
      | [] => false
      | c :: rest => searchPos p (some c) rest

/-- `re.search(r"\b" + kw + r"\b", s)`: word-boundary match of `kw`. -/
def searchWB (kw : List Char) (s : List Char) : Bool :=
  searchPos
    (fun prev t =>
      leadsWith kw t && (wordOpt prev != wordOpt kw.head?)
        && (wordOpt kw.getLast? != wordOpt (t.drop kw.length).head?))
    none s

/-- Tail of a dollar-quote tag: `[a-zA-Z0-9_]*\$`. -/
def dollarTagBody : List Char → Bool
  | [] => false
  | c :: rest =>
    if c = '$' then true
    else if c.isAlphanum || c = '_' then dollarTagBody rest
    else false

/-- A match of `\$\$|\$[a-zA-Z_][a-zA-Z0-9_]*\$` at the current position. -/
def dollarQuoteAt : List Char → Bool
  | [] => false
  | c :: rest =>
    c = '$' &&
      match rest with
      | [] => false
      | c2 :: rest2 =>
        if c2 = '$' then true
        else if c2.isAlpha || c2 = '_' then dollarTagBody rest2
        else false

/-- `re.search(r"\$\$|\$[a-zA-Z_][a-zA-Z0-9_]*\$", s)`. -/
def searchDollarQuote (s : List Char) : Bool :=
  s.tails.any dollarQuoteAt

/-- `re.search(r"\bE'", s, re.IGNORECASE)`: `E` or `e` at a word boundary
followed by a single quote. -/
def searchEscString (s : List Char) : Bool :=
  searchPos
    (fun prev t =>
      match t with
      | c :: c2 :: _ => (c = 'E' || c = 'e') && c2 = squote && !(wordOpt prev)
      | _ => false)
    none s

/-- `\s*\(` after a dangerous function name. -/
def afterSpacesParen : List Char → Bool
  | [] => false
  | c :: rest =>
    if c = '(' then true
    else if c.isWhitespace then afterSpacesParen rest
    else false

/-- `re.search(r"\b" + f + r"\s*\(", s)` for a function name `f` starting
with a word character. -/
def searchFuncCall (f : List Char) (s : List Char) : Bool :=
  searchPos
    (fun prev t => leadsWith f t && !(wordOpt prev)
      && afterSpacesParen (t.drop f.length))
    none s

/-- `\s*SELECT\b` after an opening parenthesis. -/
def afterSpacesSelect : List Char → Bool
  | [] => false
  | c :: rest =>
    if c.isWhitespace then afterSpacesSelect rest
    else
      leadsWith ("SELECT".data) (c :: rest)
        && !(wordOpt ((c :: rest).drop 6).head?)

/-- `re.search(r"\(\s*SELECT\b", s)`. -/
def searchSubquery (s : List Char) : Bool :=
  s.tails.any fun t =>
    match t with
    | c :: rest => c = '(' && afterSpacesSelect rest
    | [] => false

/-- `DANGEROUS_SQL_KEYWORDS`, in the order of the source set literal (CPython
iterates a `set` in an unspecified but fixed per-run order; the claims proved
below do not depend on this order). -/
def dangerousSqlKeywords : List String :=
  ["DROP", "DELETE", "TRUNCATE", "INSERT", "UPDATE", "ALTER", "CREATE",
   "RENAME", "GRANT", "REVOKE", "COMMIT", "ROLLBACK", "SAVEPOINT",
   "EXECUTE", "EXEC", "CALL", "SHUTDOWN", "COPY", "LOAD", "UNION",
   "/*", "*/", "--"]

/-- `DANGEROUS_PG_FUNCTIONS`, in source-literal order. -/
def dangerousPgFunctions : List String :=
  ["pg_sleep", "pg_cancel_backend", "pg_terminate_backend", "pg_read_file",
   "pg_read_binary_file", "pg_ls_dir", "lo_import", "lo_export",
   "dblink", "dblink_exec"]

/-- Outcome of `validate_where_clause`: `ok`, or the construct cited by the
raised `InsecureWhereClauseError`. -/
inductive WhereCheck where
  | ok : WhereCheck
  | insecure : String → WhereCheck
deriving DecidableEq, Repr

/-- `config.validate_where_clause` on the NFKC-normalized clause text. -/
def validateWhereClause (clause : String) : WhereCheck :=
  if clause.data.isEmpty then .ok
  else
    let normalized := stripDoubleQuoted (stripSingleQuoted clause.data)
    if searchDollarQuote normalized then .insecure ("dollar quoting ($$)")
    else if searchEscString normalized then
      .insecure ("escape string (E" ++ squoteStr ++ "..." ++ squoteStr ++ ")")
    else
      let upper := normalized.map Char.toUpper
      match dangerousSqlKeywords.find? (fun kw => searchWB kw.data upper) with
      | some kw => .insecure kw
      | none =>
        let lower := normalized.map Char.toLower
        match dangerousPgFunctions.find?
            (fun f => searchFuncCall f.data lower) with
        | some f => .insecure (f ++ "()")
        | none =>
          if searchSubquery upper then .insecure ("subquery (SELECT)")
          else if hasSub (":".data ++ ":".data) normalized then
            .insecure ("type cast (::)")
          else if hasSub (";".data) normalized then .insecure (";")
          else if hasSub ("--".data) normalized
              || hasSub ("/*".data) normalized
              || hasSub ("*/".data) normalized then
            .insecure ("comment sequence")
          else .ok

/-! ### Graph traversal (`core/graph.py`)

Database access is abstracted row-wise: `fetch_fk_values(table, fk, pks)`
and `fetch_referencing_pks(fk, pks)` issue `WHERE ... IN (...)` queries, so
their result is the union of the per-row results; the model takes the
per-row functions and forms the union itself.  `exclude_tables` and
`passthrough_tables` are Python sets used for membership and iteration;
they are modelled as lists. -/

/-- `config.TraversalDirection`. -/
inductive TraversalDirection where
  | up : TraversalDirection
  | down : TraversalDirection
  | both : TraversalDirection
deriving DecidableEq, Repr

/-- The direction tag carried on the BFS queue (`"up"` / `"down"`). -/
inductive QDir where
  | up : QDir
  | down : QDir
deriving DecidableEq, Repr

/-- `core.graph.TraversalConfig`. -/
structure TravConfig where
  max_depth : Nat
  direction : TraversalDirection
  exclude_tables : List String
  passthrough_tables : List String

/-- Row-level database adapter abstraction. -/
structure RowAdapter where
  fetchFkValuesRow : String → ForeignKey → Ident → Finset Ident
  fetchReferencingPksRow : ForeignKey → Ident → Finset Ident
  fetchAllPks : String → Finset Ident

/-- Point update of a `table → set of idents` map (a Python dict entry
assignment, with absent keys reading as the empty set). -/
def updMap (m : String → Finset Ident) (k : String) (s : Finset Ident) :
    String → Finset Ident :=
  fun t => if t = k then s else m t

/-- A queue entry `(table, pk_set, depth, direction)`. -/
structure QItem where
  table : String
  pks : Finset Ident
  depth : Nat
  dir : QDir

/-- The mutable state of `GraphTraverser.traverse`: the records accumulated
in the `TraversalResult`, the two visited maps, and the BFS queue. -/
structure TravState where
  records : String → Finset Ident
  visitedUp : String → Finset Ident
  visitedDown : String → Finset Ident
  queue : List QItem

/-- One iteration of the parent-edge loop in `GraphTraverser._traverse_up`. -/
def processUpEdge (ad : RowAdapter) (cfg : TravConfig) (table : String)
    (pks : Finset Ident) (depth : Nat) (st : TravState)
    (edge : String × ForeignKey) : TravState :=
  let ptable := edge.1
  let fk := edge.2
  if ptable ∈ cfg.exclude_tables then st
  else
    let parentPks := pks.biUnion (ad.fetchFkValuesRow table fk)
    if parentPks = ∅ then st
    else
      let newPks := parentPks \ st.visitedUp ptable
      if newPks = ∅ then st
      else
        { records := updMap st.records ptable (st.records ptable ∪ newPks)
          visitedUp := updMap st.visitedUp ptable (st.visitedUp ptable ∪ newPks)
          visitedDown := st.visitedDown
          queue := st.queue ++ [⟨ptable, newPks, depth + 1, QDir.up⟩] }

/-- `GraphTraverser._traverse_up`. -/
def processUp (schema : SchemaGraph) (ad : RowAdapter) (cfg : TravConfig)
    (table : String) (pks : Finset Ident) (depth : Nat) (st : TravState) :
    TravState :=
  (schema.get_parents table).foldl (processUpEdge ad cfg table pks depth) st

/-- One iteration of the child-edge loop in `GraphTraverser._traverse_down`
(including the scheduling of upward traversal from discovered children). -/
def processDownEdge (ad : RowAdapter) (cfg : TravConfig) (table : String)
    (pks : Finset Ident) (depth : Nat) (st : TravState)
    (edge : String × ForeignKey) : TravState :=
  let ctable := edge.1
  let fk := edge.2
  if ctable ∈ cfg.exclude_tables then st
  else
    let childPks := pks.biUnion (ad.fetchReferencingPksRow fk)
    if childPks = ∅ then st
    else
      let newPks := childPks \ st.visitedDown ctable
      if newPks = ∅ then st
      else
        let st1 : TravState :=
          { records := updMap st.records ctable (st.records ctable ∪ newPks)
            visitedUp := st.visitedUp
            visitedDown :=
              updMap st.visitedDown ctable (st.visitedDown ctable ∪ newPks)
            queue := st.queue ++ [⟨ctable, newPks, depth + 1, QDir.down⟩] }
        let newForUp := newPks \ st1.visitedUp ctable
        if newForUp = ∅ then st1
        else
          { st1 with
            visitedUp :=
              updMap st1.visitedUp ctable (st1.visitedUp ctable ∪ newForUp)
            queue := st1.queue ++ [⟨ctable, newForUp, depth + 1, QDir.up⟩] }

/-- `GraphTraverser._traverse_down`. -/
def processDown (schema : SchemaGraph) (ad : RowAdapter) (cfg : TravConfig)
    (table : String) (pks : Finset Ident) (depth : Nat) (st : TravState) :
    TravState :=
  (schema.get_children table).foldl (processDownEdge ad cfg table pks depth) st

/-- The `while queue:` loop of `GraphTraverser.traverse`, with fuel;
`none` models a run that needs more iterations than the given fuel. -/
def runQueue (schema : SchemaGraph) (ad : RowAdapter) (cfg : TravConfig) :
    Nat → TravState → Option TravState
  | 0, st =>
    match st.queue with
    | [] => some st
    | _ :: _ => none
  | fuel + 1, st =>
    match st.queue with
    | [] => some st
    | item :: rest =>
      let st1 : TravState := { st with queue := rest }
      if cfg.max_depth ≤ item.depth ∧ item.dir = QDir.down then
        runQueue schema ad cfg fuel st1
      else
        match item.dir with
        | QDir.up =>
          runQueue schema ad cfg fuel
            (processUp schema ad cfg item.table item.pks item.depth st1)
        | QDir.down =>
          runQueue schema ad cfg fuel
            (processDown schema ad cfg item.table item.pks item.depth st1)

/-- `GraphTraverser._process_passthrough_tables`, acting on the records
map. -/
def processPassthrough (schema : SchemaGraph) (ad : RowAdapter)
    (cfg : TravConfig) (records : String → Finset Ident) :
    String → Finset Ident :=
  cfg.passthrough_tables.foldl
    (fun recs t =>
      if t ∈ cfg.exclude_tables then recs
      else if ¬ schema.has_table t then recs
      else
        match schema.get_table t with
        | none => recs
        | some tinfo =>
          if tinfo.primary_key = [] then recs
          else
            let allPks := ad.fetchAllPks t
            if allPks = ∅ then recs
            else updMap recs t (recs t ∪ allPks))
    records

/-- The initial traversal state: seed records recorded and marked visited in
both directions, and the queue seeded once per requested direction tag
(up first, then down, as in the source). -/
def initTravState (seedTable : String) (seedPks : Finset Ident)
    (cfg : TravConfig) : TravState :=
  { records := updMap (fun _ => ∅) seedTable seedPks
    visitedUp := updMap (fun _ => ∅) seedTable seedPks
    visitedDown := updMap (fun _ => ∅) seedTable seedPks
    queue :=
      (if cfg.direction = TraversalDirection.up
          ∨ cfg.direction = TraversalDirection.both then
        [⟨seedTable, seedPks, 0, QDir.up⟩]
      else [])
      ++
      (if cfg.direction = TraversalDirection.down
          ∨ cfg.direction = TraversalDirection.both then
        [⟨seedTable, seedPks, 0, QDir.down⟩]
      else []) }

/-- `GraphTraverser.traverse`, returning the records map of the
`TraversalResult` (`none` when the given fuel does not cover the run). -/
def traverse (schema : SchemaGraph) (ad : RowAdapter) (seedTable : String)
    (seedPks : Finset Ident) (cfg : TravConfig) (fuel : Nat) :
    Option (String → Finset Ident) :=
  (runQueue schema ad cfg fuel (initTravState seedTable seedPks cfg)).map
    (fun st => processPassthrough schema ad cfg st.records)

/-- Row identities reachable from the seeds by following parent (UP) edges
only: the seeds themselves, and the FK values of any reachable row along a
parent edge of its table. -/
inductive UpReachable (schema : SchemaGraph) (ad : RowAdapter)
    (seedTable : String) (seedPks : Finset Ident) : String → Ident → Prop
  | seed (i : Ident) (hi : i ∈ seedPks) :
      UpReachable schema ad seedTable seedPks seedTable i
  | step (t : String) (i : Ident) (p : String) (fk : ForeignKey) (j : Ident)
      (hreach : UpReachable schema ad seedTable seedPks t i)
      (hedge : (p, fk) ∈ schema.get_parents t)
      (hj : j ∈ ad.fetchFkValuesRow t fk i) :
      UpReachable schema ad seedTable seedPks p j

/-- A row `(t, i)` is fully expanded upward in state `st`: along every
parent edge of `t`, all FK values of row `i` are already UP-visited. -/
def UpExpanded (schema : SchemaGraph) (ad : RowAdapter) (st : TravState)
    (t : String) (i : Ident) : Prop :=
  ∀ p fk, (p, fk) ∈ schema.get_parents t →
    ad.fetchFkValuesRow t fk i ⊆ st.visitedUp p

/-- Every UP-visited row is either awaiting upward processing on the queue
or already fully expanded — the loop invariant of `traverse` that makes the
UP closure complete. -/
def QueueCovers (schema : SchemaGraph) (ad : RowAdapter) (st : TravState) :
    Prop :=
  ∀ t i, i ∈ st.visitedUp t →
    (∃ item ∈ st.queue, item.dir = QDir.up ∧ item.table = t ∧ i ∈ item.pks)
    ∨ UpExpanded schema ad st t i

/-- Soundness invariant for depth-0 runs: every recorded or UP-visited row,
and every row pending on an UP queue item, is UP-reachable from the
seeds. -/
def SoundState (schema : SchemaGraph) (ad : RowAdapter) (seedTable : String)
    (seedPks : Finset Ident) (st : TravState) : Prop :=
  (∀ t i, i ∈ st.records t → UpReachable schema ad seedTable seedPks t i)
  ∧ (∀ t i, i ∈ st.visitedUp t → UpReachable schema ad seedTable seedPks t i)
  ∧ (∀ item ∈ st.queue, item.dir = QDir.up →
      ∀ i ∈ item.pks, UpReachable schema ad seedTable seedPks item.table i)

/-! ### Cycle resolution (`core/cycles.py`) and topological ordering
(`core/engine.py`)

Python dicts become insertion-ordered association lists and Python sets of
table names become first-insertion-ordered duplicate-free lists (CPython set
iteration order is unspecified; the statements proved below either hold for
any order or are robust against the possible orders, as noted at their
claims). -/

/-- A dependency graph: `table → set of tables it depends on`. -/
abbrev Deps := List (String × List String)

/-- `dependencies.get(node, set())`. -/
def depsGet (deps : Deps) (node : String) : List String :=
  match deps.find? (fun p => p.1 = node) with
  | some p => p.2
  | none => []

/-- `set.add` on an insertion-ordered list model of a Python set. -/
def addUnique (l : List String) (x : String) : List String :=
  if x ∈ l then l else l ++ [x]

/-- The recursive `dfs` helper of `cycles.find_cycles_dfs`.  `visited` and
the accumulated cycle list thread through the neighbor loop; `rec_stack` is
passed down (push-before/pop-after in Python).  Fuel bounds the recursion
depth; it is unreachable for the fuel chosen by `findCyclesDfs`. -/
def dfsGo (deps : Deps) :
    Nat → String → List String → List String → List (List String) →
      List String × List (List String)
  | 0, _, visited, _, cycles => (visited, cycles)
  | fuel + 1, node, visited, recStack, cycles =>
    if node ∈ recStack then
      (visited, cycles ++ [recStack.dropWhile (fun x => x ≠ node)])
    else if node ∈ visited then (visited, cycles)
    else
      (depsGet deps node).foldl
        (fun acc nb => dfsGo deps fuel nb acc.1 (recStack ++ [node]) acc.2)
        (visited ++ [node], cycles)

/-- A fuel bound exceeding any possible `dfs` recursion depth: every real
recursive step pushes a distinct node, and every node is a key or a listed
neighbor. -/
def dfsFuel (deps : Deps) : Nat :=
  deps.foldl (fun n p => n + 1 + p.2.length) 0 + 2

/-- `cycles.find_cycles_dfs`. -/
def findCyclesDfs (deps : Deps) : List (List String) :=
  (deps.foldl
      (fun acc p =>
        if p.1 ∈ acc.1 then acc
        else dfsGo deps (dfsFuel deps) p.1 acc.1 [] acc.2)
      ([], [])).2

/-- The directed edge set of a cycle path `[t0, ..., tk]`
(`t0 → t1 → ... → tk → t0`). -/
def cycleEdges (cycle : List String) : List (String × String) :=
  cycle.zip (cycle.drop 1 ++ cycle.take 1)

/-- `cycles.identify_cycle_fks`: FKs whose (source, target) is an edge of
the cycle path. -/
def identifyCycleFks (schema : SchemaGraph) (cycle : List String) :
    List ForeignKey :=
  schema.edges.filter
    (fun fk => (fk.source_table, fk.target_table) ∈ cycleEdges cycle)

/-- The common tail of `cycles.select_nullable_fk_to_break` (prefer
single-column among all nullable FKs, else the first nullable FK). -/
def selectFallback (nullableFks : List ForeignKey) : Option ForeignKey :=
  match nullableFks.filter (fun fk => fk.source_columns.length = 1) with
  | fk :: _ => some fk
  | [] => nullableFks.head?

/-- `cycles.select_nullable_fk_to_break`. -/
def selectNullableFkToBreak (cycleFks : List ForeignKey)
    (cycle : Option (List String)) : Option ForeignKey :=
  let nullableFks := cycleFks.filter (fun fk => fk.is_nullable)
  match nullableFks with
  | [] => none
  | _ :: _ =>
    let isSingleTableCycle : Bool :=
      match cycle with
      | some c => c.length == 1
      | none => false
    if isSingleTableCycle then
      match nullableFks.filter (fun fk => fk.is_self_referential) with
      | fk :: _ => some fk
      | [] => selectFallback nullableFks
    else
      match nullableFks.filter (fun fk => ¬ fk.is_self_referential) with
      | [] => selectFallback nullableFks
      | fk0 :: rest =>
        match (fk0 :: rest).filter
            (fun fk => fk.source_columns.length = 1) with
        | fk :: _ => some fk
        | [] => some fk0

/-- `cycles.CycleInfo`. -/
structure CycleInfo where
  tables : List String
  fks_in_cycle : List ForeignKey
deriving DecidableEq, Repr

/-- Python `sep.join(parts)`. -/
def joinWith (sep : String) : List String → String
  | [] => ""
  | [x] => x
  | x :: y :: rest => x ++ sep ++ joinWith sep (y :: rest)

/-- The `Cycle path:` string `" → ".join(cycle + [cycle[0]])`. -/
def cyclePathStr (cycle : List String) : String :=
  joinWith (" → ") (cycle ++ cycle.take 1)

/-- One per-FK line of the `CircularReferenceError` message. -/
def fkDetailStr (fk : ForeignKey) : String :=
  "  - " ++ fk.source_table ++ "." ++ joinWith (", ") fk.source_columns
    ++ " → " ++ fk.target_table ++ "." ++ joinWith (", ") fk.target_columns
    ++ " (" ++ (if fk.is_nullable then "nullable" else "NOT NULL") ++ ")"

/-- The message of the `ValueError` raised by
`break_cycles_at_nullable_fks` when a cycle has no nullable FK (the final
`Recommended:` line reads `cycle_fks[0]`; for an empty FK list Python would
raise `IndexError` instead — that case cannot arise from a detected cycle
and the fallback text is irrelevant to the theorems below). -/
def noNullableMsg (cycle : List String) (cycleFks : List ForeignKey) :
    String :=
  "Circular dependency detected with no nullable foreign key to break.\n\n"
    ++ "Cycle path: " ++ cyclePathStr cycle ++ "\n\n"
    ++ "Foreign keys in cycle:\n" ++ joinWith ("\n") (cycleFks.map fkDetailStr)
    ++ "\n\n"
    ++ "To resolve this issue, you can:\n"
    ++ "  1. Make one of the foreign keys nullable in your database schema\n"
    ++ "  2. Use PostgreSQL" ++ squoteStr
    ++ "s deferred constraints (if using PostgreSQL)\n"
    ++ "  3. Temporarily disable FK checks (use at your own risk)\n\n"
    ++ "Recommended: Make "
    ++ (match cycleFks.head? with
        | some fk => fk.source_table ++ "." ++ joinWith (", ") fk.source_columns
        | none => "")
    ++ " nullable."

/-- The cycle loop of `cycles.break_cycles_at_nullable_fks`, accumulating
broken FKs (deduplicated via `fks_to_break_set`) and cycle infos. -/
def breakGo (schema : SchemaGraph) :
    List (List String) → List ForeignKey → List CycleInfo →
      Except String (List ForeignKey × List CycleInfo)
  | [], fks, infos => .ok (fks, infos)
  | cycle :: rest, fks, infos =>
    let cycleFks := identifyCycleFks schema cycle
    match selectNullableFkToBreak cycleFks (some cycle) with
    | none => .error (noNullableMsg cycle cycleFks)
    | some nfk =>
      breakGo schema rest (if nfk ∈ fks then fks else fks ++ [nfk])
        (infos ++ [⟨cycle, cycleFks⟩])

/-- `cycles.break_cycles_at_nullable_fks` (its `tables` parameter is unused
in the source body and omitted here). -/
def breakCyclesAtNullableFks (schema : SchemaGraph) (dependencies : Deps) :
    Except String (List ForeignKey × List CycleInfo) :=
  match findCyclesDfs dependencies with
  | [] => .ok ([], [])
  | c :: rest => breakGo schema (c :: rest) [] []

/-- `graphlib.TopologicalSorter.static_order`, as round-based Kahn
elimination: each round emits, in node order, every remaining node whose
dependencies were all emitted; `none` models the raised `CycleError`.
Fuel `length + 1` covers any run since each successful round removes a
node. -/
def kahnGo : Nat → Deps → List String → Option (List String)
  | 0, remaining, acc =>
    match remaining with
    | [] => some acc
    | _ :: _ => none
  | fuel + 1, remaining, acc =>
    match remaining with
    | [] => some acc
    | _ :: _ =>
      match remaining.filter (fun p => p.2.all (fun d => d ∈ acc)) with
      | [] => none
      | ready0 :: readyRest =>
        let names := (ready0 :: readyRest).map (fun p => p.1)
        kahnGo fuel (remaining.filter (fun p => p.1 ∉ names)) (acc ++ names)

/-- Topological sort of a dependency graph (dependencies come first in the
returned order, matching `static_order`). -/
def topoSortKahn (deps : Deps) : Option (List String) :=
  kahnGo (deps.length + 1) deps []

/-- The dependency map built by `ExtractionEngine._topological_sort`: only
real catalog edges (`schema.edges`) between extracted tables contribute;
virtual FK edges are not consulted. -/
def buildDependencies (schema : SchemaGraph) (tables : List String) : Deps :=
  tables.map (fun t =>
    (t,
      (schema.edges.filter
          (fun fk => fk.source_table = t ∧ fk.target_table ∈ tables)).foldl
        (fun acc fk => addUnique acc fk.target_table) []))

/-- Outcome of `ExtractionEngine._topological_sort`. -/
inductive TopoOutcome where
  | ok : List String → List ForeignKey → List CycleInfo → TopoOutcome
  | circularReferenceError : String → TopoOutcome
  | cycleErrorUncaught : TopoOutcome
deriving DecidableEq, Repr

/-- `ExtractionEngine._topological_sort`: try a sort; on `CycleError`, break
cycles (a `ValueError` becomes `CircularReferenceError`), discard each
broken FK's (source, target) dependency edge, and sort again — an
unresolved cycle at that second sort raises an uncaught
`graphlib.CycleError`. -/
def topologicalSortEngine (schema : SchemaGraph) (tables : List String) :
    TopoOutcome :=
  let dependencies := buildDependencies schema tables
  match topoSortKahn dependencies with
  | some order => .ok order [] []
  | none =>
    match breakCyclesAtNullableFks schema dependencies with
    | .error msg => .circularReferenceError msg
    | .ok (fksToBreak, cycleInfos) =>
      let modifiedDeps : Deps :=
        dependencies.map (fun p =>
          (p.1,
            p.2.filter (fun d =>
              ¬ fksToBreak.any
                (fun fk => fk.source_table = p.1 ∧ fk.target_table = d))))
      match topoSortKahn modifiedDeps with
      | some order => .ok order fksToBreak cycleInfos
      | none => .cycleErrorUncaught

/-! ### Primary-key batching (`adapters/postgresql.py`, `fetch_by_pk`) -/

/-- One parameterized query issued by `fetch_by_pk`. -/
inductive PkQuery where
  | inList : String → Nat → PkQuery
  | orOfAnd : Nat → Nat → PkQuery
deriving DecidableEq, Repr

/-- Split a list into consecutive chunks of size `eff` (the
`range(0, n, eff)` slicing loop); fuel `= length` suffices for `eff ≥ 1`. -/
def chunkGo (eff : Nat) : Nat → List α → List (List α)
  | _, [] => []
  | 0, l => [l]
  | fuel + 1, x :: rest => (x :: rest).take eff :: chunkGo eff fuel ((x :: rest).drop eff)

/-- The batches of `fetch_by_pk`. -/
def chunkList (eff : Nat) (l : List α) : List (List α) :=
  chunkGo eff l.length l

/-- The query plan of `PostgreSQLAdapter.fetch_by_pk`: effective batch size
`batch_size // max(arity, 1)`; one `IN` query per batch (one bound
parameter per identity) for single-column PKs, or an OR of AND-equality
groups (one group per row, `arity` parameters each) for composite PKs.
`none` models the `ValueError` Python raises from `range(0, n, 0)` when the
effective batch size is zero. -/
def fetchByPkPlan (batchSize : Nat) (pkColumns : List String)
    (pkValues : List Ident) : Option (List PkQuery) :=
  match pkValues with
  | [] => some []
  | _ :: _ =>
    let eff := batchSize / max pkColumns.length 1
    if eff = 0 then none
    else
      some ((chunkList eff pkValues).map (fun batch =>
        match pkColumns with
        | [col] => .inList col batch.length
        | _ => .orOfAnd batch.length pkColumns.length))

/-! ### Emission-path decision and validation control flow
(`core/engine.py` `_do_extract` after the topological sort, together with
`core/streaming.py` `stream_to_file`) -/

/-- The configuration fields consulted by the emission tail of
`_do_extract`. -/
structure TailConfig where
  dry_run : Bool
  stream : Bool
  streaming_threshold : Nat
  output_file : Option String
  validate : Bool
  fail_on_validation_error : Bool

/-- `ExtractionEngine._should_use_streaming`. -/
def shouldUseStreaming (cfg : TailConfig) (totalRows : Nat) : Bool :=
  if cfg.stream then true
  else if cfg.streaming_threshold ≤ totalRows ∧ cfg.output_file.isSome then
    true
  else false

/-- Outcome of the tail of `_do_extract`: dry-run return, the `ValueError`
for streaming without an output file, the streaming return (the file is
written by `stream_to_file`, which performs no validation and returns a
result with `validation_result = None`), or the in-memory return carrying
whether validation ran, its result, and whether `ExtractionError` was
raised under `fail_on_validation_error`. -/
inductive TailOutcome where
  | dryRun : TailOutcome
  | streamingNoOutputError : TailOutcome
  | streamed : TailOutcome
  | inMemory : Bool → Option Bool → Bool → TailOutcome
deriving DecidableEq, Repr

/-- The emission tail of `_do_extract` (engine.py lines 280-449):
`dataIsValid` abstracts the verdict `ExtractionValidator.validate` would
reach on the extracted rows. -/
def doExtractTail (cfg : TailConfig) (totalRows : Nat) (dataIsValid : Bool) :
    TailOutcome :=
  if cfg.dry_run then .dryRun
  else if shouldUseStreaming cfg totalRows then
    if cfg.output_file.isNone then .streamingNoOutputError
    else .streamed
  else if cfg.validate then
    if dataIsValid then .inMemory true (some true) false
    else .inMemory true (some false) cfg.fail_on_validation_error
  else .inMemory false none false

/-! ### Auxiliary predicates and concrete instances used in the theorems -/

/-- `x` occurs strictly before `y` in `order` (some split has `x` in the
left part and `y` in the right part). -/
def precedesIn (order : List String) (x y : String) : Prop :=
  ∃ l1 l2, order = l1 ++ l2 ∧ x ∈ l1 ∧ y ∈ l2

/-- A concrete stand-in for the SHA-256-derived 64-bit seed integer. -/
def demoSha : String → Nat := fun s => s.length

/-- A concrete stand-in for the deterministically seeded Faker generator. -/
def demoFaker : Nat → String → PyValue := fun n m => .vstr (m ++ toString n)

/-- An FK whose source column name matches the `session_id` security-NULL
pattern. -/
def c1Fk : ForeignKey :=
  { name := "fk_orders_session", source_table := "orders",
    source_columns := ["session_id"], target_table := "sessions",
    target_columns := ["id"], is_nullable := false }

/-- Schema for the C1 failing input: `orders.session_id` is an FK source
column. -/
def c1Schema : SchemaGraph :=
  { tables := [("orders",
      { name := "orders", primary_key := ["id"], foreign_keys := [c1Fk] })],
    edges := [c1Fk], virtual_edges := [] }

/-- A single-column nullable FK between the given tables. -/
def mkNullableFk (n s t : String) : ForeignKey :=
  { name := n, source_table := s, source_columns := ["x"], target_table := t,
    target_columns := ["id"], is_nullable := true }

/-- The diamond-with-return schema `a→b→d→a` and `a→c→d→a`: two directed
cycles sharing the edge `d→a`, all FKs nullable and single-column. -/
def diamondSchema : SchemaGraph :=
  { tables := [],
    edges := [mkNullableFk ("ab") ("a") ("b"), mkNullableFk ("ac") ("a") ("c"),
      mkNullableFk ("bd") ("b") ("d"), mkNullableFk ("cd") ("c") ("d"),
      mkNullableFk ("da") ("d") ("a")],
    virtual_edges := [] }

/-- Two-table cycle with both FKs NOT NULL (spec scenario 4). -/
def twoCycleSchema : SchemaGraph :=
  { tables := [],
    edges :=
      [{ name := "fk_dept_manager", source_table := "departments",
         source_columns := ["manager_id"], target_table := "employees",
         target_columns := ["id"], is_nullable := false },
       { name := "fk_emp_department", source_table := "employees",
         source_columns := ["department_id"], target_table := "departments",
         target_columns := ["id"], is_nullable := false }],
    virtual_edges := [] }

/-- A schema whose only edge is a virtual FK `a → b`. -/
def vfkOnlySchema : SchemaGraph :=
  { tables := [], edges := [],
    virtual_edges :=
      [{ name := "vfk_ab", source_table := "a", source_columns := ["b_id"],
         target_table := "b", target_columns := ["id"],
         description := "configured", is_nullable := true }] }

/-- A real FK `orders → users` for the C5 witness. -/
def ordersUsersFk : ForeignKey :=
  { name := "fk_orders_users", source_table := "orders",
    source_columns := ["user_id"], target_table := "users",
    target_columns := ["id"], is_nullable := false }

/-- Schema with the single real edge `orders → users`. -/
def ordersUsersSchema : SchemaGraph :=
  { tables :=
      [("users", { name := "users", primary_key := ["id"], foreign_keys := [] }),
       ("orders",
        { name := "orders", primary_key := ["id"],
          foreign_keys := [ordersUsersFk] })],
    edges := [ordersUsersFk], virtual_edges := [] }

/-- Concrete row-level adapter over `ordersUsersSchema`: orders 1 and 2
belong to user 10; user 10 has children orders 1 and 2. -/
def demoAdapter : RowAdapter :=
  { fetchFkValuesRow := fun t fk i =>
      if t = "orders" ∧ fk.name = "fk_orders_users" ∧ (i = [1] ∨ i = [2]) then
        {[10]}
      else ∅
    fetchReferencingPksRow := fun fk j =>
      if fk.name = "fk_orders_users" ∧ j = [10] then {[1], [2]} else ∅
    fetchAllPks := fun _ => ∅ }

/-! ## Theorems -/

/-! ### C1 -/

/-- C1: the claim states that whenever a column participates in any
ForeignKey's `source_columns` for its table, `anonymize_value` returns the
value unchanged for every input value — explicitly including columns whose
names match a security-NULL pattern such as `session_id`.  The code checks
`should_null` *before* the FK guard (`should_anonymize`), so at the failing
input below — `orders.session_id` is an FK source column — the value
`sess-1` is replaced by `None` instead of being preserved. -/
theorem c1_fk_security_null_column_is_nulled :
    isForeignKeyColumn (some c1Schema) ("orders") ("session_id") = true
    ∧ shouldNull ("orders") ("session_id") = true
    ∧ (anonymizeValue demoSha demoFaker ("seed") (some c1Schema) [] []
        (PyValue.vstr ("sess-1")) ("orders") ("session_id")).1 = PyValue.vnone
    ∧ PyValue.vnone ≠ PyValue.vstr ("sess-1") := by
  decide

/-! ### C7 -/

theorem anonymizeValue_classified (sha : String → Nat)
    (faker : Nat → String → PyValue) (seed : String)
    (schema : Option SchemaGraph) (redact : List String) (cache : AnonCache)
    (v : PyValue) (t col : String)
    (hcc : CacheConsistent sha faker seed cache) (hv : v ≠ PyValue.vnone)
    (hnull : shouldNull t col = false)
    (hanon : shouldAnonymize schema redact t col = true) :
    (anonymizeValue sha faker seed schema redact cache v t col).1
      = pureAnonStr sha faker seed col (pyStr v) := by
  cases v with
  | vnone => exact absurd rfl hv
  | vstr s =>
    simp only [anonymizeValue, hnull, Bool.false_eq_true, if_false, hanon,
      not_true, reduceIte]
    cases hfind : cache.find? (fun e => e.1 = (pyStr (PyValue.vstr s), col)) with
    | none => simp [hfind, pureAnonStr]
    | some e =>
      have hmem : e ∈ cache := List.mem_of_find?_eq_some hfind
      have hkey : e.1 = (pyStr (PyValue.vstr s), col) := by
        have := List.find?_some hfind
        simpa using this
      have hval := hcc e hmem
      simp [hfind, hval, hkey]
  | vint n =>
    simp only [anonymizeValue, hnull, Bool.false_eq_true, if_false, hanon,
      not_true, reduceIte]
    cases hfind : cache.find? (fun e => e.1 = (pyStr (PyValue.vint n), col)) with
    | none => simp [hfind, pureAnonStr]
    | some e =>
      have hmem : e ∈ cache := List.mem_of_find?_eq_some hfind
      have hkey : e.1 = (pyStr (PyValue.vint n), col) := by
        have := List.find?_some hfind
        simpa using this
      have hval := hcc e hmem
      simp [hfind, hval, hkey]

theorem anonymizeValue_cache_cases (sha : String → Nat)
    (faker : Nat → String → PyValue) (seed : String)
    (schema : Option SchemaGraph) (redact : List String) (cache : AnonCache)
    (v : PyValue) (t col : String) :
    (anonymizeValue sha faker seed schema redact cache v t col).2 = cache
    ∨ (anonymizeValue sha faker seed schema redact cache v t col).2
        = ((pyStr v, col), pureAnonStr sha faker seed col (pyStr v)) :: cache := by
  cases v with
  | vnone => left; rfl
  | vstr s =>
    by_cases h1 : shouldNull t col
    · left; simp [anonymizeValue, h1]
    · by_cases h2 : shouldAnonymize schema redact t col
      · cases hfind : cache.find?
            (fun e => e.1 = (pyStr (PyValue.vstr s), col)) with
        | none =>
          right
          simp [anonymizeValue, h1, h2, hfind, pureAnonStr]
        | some e => left; simp [anonymizeValue, h1, h2, hfind]
      · left; simp [anonymizeValue, h1, h2]
  | vint n =>
    by_cases h1 : shouldNull t col
    · left; simp [anonymizeValue, h1]
    · by_cases h2 : shouldAnonymize schema redact t col
      · cases hfind : cache.find?
            (fun e => e.1 = (pyStr (PyValue.vint n), col)) with
        | none =>
          right
          simp [anonymizeValue, h1, h2, hfind, pureAnonStr]
        | some e => left; simp [anonymizeValue, h1, h2, hfind]
      · left; simp [anonymizeValue, h1, h2]

/-- C7: within one extraction the anonymized value for a classified column
is a pure function of (global_seed, column_name, original_value) — two
invocations with the same seed, column and value, in the same or different
tables and with any consistent caches, produce identical outputs (namely
the value synthesized from the SHA-derived seed of
`"{seed}:{column}:{value}"`); a NULL input yields a NULL output regardless
of classification; and every invocation preserves cache consistency, so
consistency holds throughout an extraction that starts from the empty
cache. -/
theorem c7_anonymize_pure_function :
    (∀ (sha : String → Nat) (faker : Nat → String → PyValue) (seed : String)
        (schema : Option SchemaGraph) (redact : List String)
        (cache1 cache2 : AnonCache) (t1 t2 col : String) (v : PyValue),
      CacheConsistent sha faker seed cache1 →
      CacheConsistent sha faker seed cache2 →
      v ≠ PyValue.vnone →
      shouldNull t1 col = false → shouldAnonymize schema redact t1 col = true →
      shouldNull t2 col = false → shouldAnonymize schema redact t2 col = true →
      (anonymizeValue sha faker seed schema redact cache1 v t1 col).1
        = (anonymizeValue sha faker seed schema redact cache2 v t2 col).1
      ∧ (anonymizeValue sha faker seed schema redact cache1 v t1 col).1
          = pureAnonStr sha faker seed col (pyStr v))
    ∧ (∀ (sha : String → Nat) (faker : Nat → String → PyValue) (seed : String)
        (schema : Option SchemaGraph) (redact : List String)
        (cache : AnonCache) (t col : String),
      (anonymizeValue sha faker seed schema redact cache PyValue.vnone t col).1
        = PyValue.vnone)
    ∧ (∀ (sha : String → Nat) (faker : Nat → String → PyValue) (seed : String)
        (schema : Option SchemaGraph) (redact : List String)
        (cache : AnonCache) (v : PyValue) (t col : String),
      CacheConsistent sha faker seed cache →
      CacheConsistent sha faker seed
        (anonymizeValue sha faker seed schema redact cache v t col).2) := by
  refine ⟨?_, ?_, ?_⟩
  · intro sha faker seed schema redact cache1 cache2 t1 t2 col v hc1 hc2 hv
      hn1 ha1 hn2 ha2
    have e1 := anonymizeValue_classified sha faker seed schema redact cache1
      v t1 col hc1 hv hn1 ha1
    have e2 := anonymizeValue_classified sha faker seed schema redact cache2
      v t2 col hc2 hv hn2 ha2
    exact ⟨e1.trans e2.symm, e1⟩
  · intro sha faker seed schema redact cache t col
    rfl
  · intro sha faker seed schema redact cache v t col hcc
    rcases anonymizeValue_cache_cases sha faker seed schema redact cache
        v t col with h | h
    · rw [h]; exact hcc
    · rw [h]
      intro e he
      rcases List.mem_cons.mp he with he | he
      · subst he; rfl
      · exact hcc e he

/-- C7 witness: the theorem applied at a concrete input — the value
`alice@example.com` in an `email` column of two different tables with empty
caches. -/
theorem c7_witness :
    (anonymizeValue demoSha demoFaker ("s") none [] []
        (PyValue.vstr ("alice@example.com")) ("users") ("email")).1
      = (anonymizeValue demoSha demoFaker ("s") none [] []
          (PyValue.vstr ("alice@example.com")) ("customers") ("email")).1 :=
  (c7_anonymize_pure_function.1 demoSha demoFaker ("s") none [] [] []
    ("users") ("customers") ("email") (PyValue.vstr ("alice@example.com"))
    (by intro e he; cases he) (by intro e he; cases he)
    (by decide) (by decide) (by decide) (by decide) (by decide)).1

/-! ### C9 -/

/-- C9 (amended): when the streaming emission path is taken, referential-
integrity validation is *not* performed at all — `_do_extract` returns from
the streaming branch before its validation block, `stream_to_file` performs
no validation, and no error is raised regardless of `validate`,
`fail_on_validation_error` or the data's validity; the streamed result
carries no validation outcome. -/
theorem c9_streaming_skips_validation (cfg : TailConfig) (totalRows : Nat)
    (dataIsValid : Bool) (hdry : cfg.dry_run = false)
    (hstream : shouldUseStreaming cfg totalRows = true)
    (hout : cfg.output_file.isSome = true) :
    doExtractTail cfg totalRows dataIsValid = TailOutcome.streamed := by
  cases hfile : cfg.output_file with
  | none => rw [hfile] at hout; simp at hout
  | some f => simp [doExtractTail, hdry, hstream, hfile]

/-- C9 counterexample: with validation enabled, `fail_on_validation_error`
set, invalid data, and forced streaming, the outcome is the streaming
return — validation never ran and its (would-be failing) verdict is neither
reported nor raised, contradicting the claim that validation is still
performed post-emit in streaming mode. -/
theorem c9_counterexample :
    doExtractTail
      { dry_run := false, stream := true, streaming_threshold := 50000,
        output_file := some ("out.sql"), validate := true,
        fail_on_validation_error := true } 100 false
      = TailOutcome.streamed
    ∧ TailOutcome.streamed ≠ TailOutcome.inMemory true (some false) true := by
  decide

/-- C9 witness: the amended theorem at a concrete auto-streaming
configuration (row count above the threshold and an output file given). -/
theorem c9_witness :
    doExtractTail
      { dry_run := false, stream := false, streaming_threshold := 50000,
        output_file := some ("big.sql"), validate := true,
        fail_on_validation_error := false } 60000 true
      = TailOutcome.streamed :=
  c9_streaming_skips_validation _ _ _ rfl (by decide) rfl

/-! ### C8 -/

theorem chunkGo_length {α : Type} (eff : Nat) (heff : 0 < eff) :
    ∀ (fuel : Nat) (l : List α), l.length ≤ fuel →
      (chunkGo eff fuel l).length = (l.length + eff - 1) / eff := by
  intro fuel
  induction fuel with
  | zero =>
    intro l hl
    have hnil : l = [] := List.eq_nil_of_length_eq_zero (Nat.le_zero.mp hl)
    subst hnil
    simp [chunkGo]
    symm
    apply Nat.div_eq_of_lt
    omega
  | succ n ih =>
    intro l hl
    cases l with
    | nil =>
      simp [chunkGo]
      symm
      apply Nat.div_eq_of_lt
      omega
    | cons x rest =>
      have hdrop : ((x :: rest).drop eff).length ≤ n := by
        simp only [List.length_drop, List.length_cons] at *
        omega
      simp only [chunkGo, List.length_cons, ih _ hdrop, List.length_drop]
      rcases le_or_lt eff (rest.length + 1) with hle | hlt
      · have h1 : rest.length + 1 - eff + eff - 1 = rest.length := by omega
        have h2 : rest.length + 1 + eff - 1 = rest.length + eff := by omega
        rw [h1, h2, Nat.add_div_right _ heff]
      · have h1 : rest.length + 1 - eff + eff - 1 = eff - 1 := by omega
        have h2 : rest.length + 1 + eff - 1 = rest.length + eff := by omega
        rw [h1, h2, Nat.add_div_right _ heff]
        have h3 : (eff - 1) / eff = 0 := Nat.div_eq_of_lt (by omega)
        have h4 : rest.length / eff = 0 := Nat.div_eq_of_lt (by omega)
        rw [h3, h4]

theorem chunkGo_mem {α : Type} (eff : Nat) (heff : 0 < eff) :
    ∀ (fuel : Nat) (l : List α) (batch : List α),
      l.length ≤ fuel → batch ∈ chunkGo eff fuel l →
      0 < batch.length ∧ batch.length ≤ eff := by
  intro fuel
  induction fuel with
  | zero =>
    intro l batch hl hmem
    have hnil : l = [] := List.eq_nil_of_length_eq_zero (Nat.le_zero.mp hl)
    subst hnil
    simp [chunkGo] at hmem
  | succ n ih =>
    intro l batch hl hmem
    cases l with
    | nil => simp [chunkGo] at hmem
    | cons x rest =>
      simp only [chunkGo, List.mem_cons] at hmem
      rcases hmem with hmem | hmem
      · subst hmem
        constructor
        · simp [List.length_take]
          omega
        · simp [List.length_take]
      · have hdrop : ((x :: rest).drop eff).length ≤ n := by
          simp only [List.length_drop, List.length_cons] at *
          omega
        exact ih _ _ hdrop hmem

/-- C8: `fetch_by_pk` partitions the PK set into batches of effective size
`limit ÷ max(1, arity(pk))` — the number of issued queries is the
corresponding ceiling; each single-column-PK batch issues an `IN` query
with one bound parameter per identity; each composite-PK batch issues an OR
of AND-equality groups, one group per row with `arity` parameters; and
100,000 identities against a single-column PK with a 1,000-parameter limit
issue exactly 100 queries. -/
theorem c8_fetch_by_pk_batching :
    (∀ (batchSize : Nat) (pkColumns : List String) (pkValues : List Ident),
      0 < batchSize / max pkColumns.length 1 →
      ∃ qs, fetchByPkPlan batchSize pkColumns pkValues = some qs
        ∧ qs.length
            = (pkValues.length + batchSize / max pkColumns.length 1 - 1)
              / (batchSize / max pkColumns.length 1)
        ∧ (∀ col, pkColumns = [col] →
            ∀ q ∈ qs, ∃ k, q = PkQuery.inList col k
              ∧ 0 < k ∧ k ≤ batchSize / max pkColumns.length 1)
        ∧ (2 ≤ pkColumns.length →
            ∀ q ∈ qs, ∃ g, q = PkQuery.orOfAnd g pkColumns.length
              ∧ 0 < g ∧ g ≤ batchSize / max pkColumns.length 1))
    ∧ (∀ (pkValues : List Ident) (col : String), pkValues.length = 100000 →
        ∃ qs, fetchByPkPlan 1000 [col] pkValues = some qs ∧ qs.length = 100) := by
  have main : ∀ (batchSize : Nat) (pkColumns : List String)
      (pkValues : List Ident),
      0 < batchSize / max pkColumns.length 1 →
      ∃ qs, fetchByPkPlan batchSize pkColumns pkValues = some qs
        ∧ qs.length
            = (pkValues.length + batchSize / max pkColumns.length 1 - 1)
              / (batchSize / max pkColumns.length 1)
        ∧ (∀ col, pkColumns = [col] →
            ∀ q ∈ qs, ∃ k, q = PkQuery.inList col k
              ∧ 0 < k ∧ k ≤ batchSize / max pkColumns.length 1)
        ∧ (2 ≤ pkColumns.length →
            ∀ q ∈ qs, ∃ g, q = PkQuery.orOfAnd g pkColumns.length
              ∧ 0 < g ∧ g ≤ batchSize / max pkColumns.length 1) := by
    intro batchSize pkColumns pkValues heff
    cases pkValues with
    | nil =>
      refine ⟨[], rfl, ?_, ?_, ?_⟩
      · simp
        symm
        apply Nat.div_eq_of_lt
        omega
      · intro col hcol q hq; simp at hq
      · intro h2 q hq; simp at hq
    | cons v0 vrest =>
      have hne : batchSize / max pkColumns.length 1 ≠ 0 := Nat.pos_iff_ne_zero.mp heff
      refine ⟨(chunkList (batchSize / max pkColumns.length 1)
          (v0 :: vrest)).map
            (fun batch =>
              match pkColumns with
              | [col] => PkQuery.inList col batch.length
              | _ => PkQuery.orOfAnd batch.length pkColumns.length),
        ?_, ?_, ?_, ?_⟩
      · simp only [fetchByPkPlan]
        rw [if_neg hne]
      · simp only [List.length_map, chunkList]
        exact chunkGo_length _ heff _ _ (le_refl _)
      · intro col hcol q hq
        subst hcol
        simp only [List.mem_map] at hq
        obtain ⟨batch, hbatch, hqeq⟩ := hq
        rw [chunkList] at hbatch
        have := chunkGo_mem _ heff _ _ batch (le_refl _) hbatch
        exact ⟨batch.length, hqeq.symm, this.1, this.2⟩
      · intro h2 q hq
        simp only [List.mem_map] at hq
        obtain ⟨batch, hbatch, hqeq⟩ := hq
        rw [chunkList] at hbatch
        have hb := chunkGo_mem _ heff _ _ batch (le_refl _) hbatch
        refine ⟨batch.length, ?_, hb.1, hb.2⟩
        cases pkColumns with
        | nil => simp at h2
        | cons c1 cs =>
          cases cs with
          | nil => simp at h2
          | cons c2 cs2 => exact hqeq.symm
  refine ⟨main, ?_⟩
  intro pkValues col hlen
  have hmax : max ([col] : List String).length 1 = 1 := by simp
  have heff : 0 < 1000 / max ([col] : List String).length 1 := by
    rw [hmax]
    decide
  obtain ⟨qs, hplan, hqlen, _, _⟩ := main 1000 [col] pkValues heff
  refine ⟨qs, hplan, ?_⟩
  rw [hqlen, hlen, hmax]

/-- C8 witness: the theorem applied at concrete inputs — six identities
against a single-column PK with limit 4 (two queries), and a 100,000-element
identity list with limit 1,000 (one hundred queries). -/
theorem c8_witness :
    (∃ qs, fetchByPkPlan 4 ["id"] [[1], [2], [3], [4], [5], [6]] = some qs
      ∧ qs.length = 2
      ∧ (∀ col, (["id"] : List String) = [col] →
          ∀ q ∈ qs, ∃ k, q = PkQuery.inList col k ∧ 0 < k ∧ k ≤ 4)
      ∧ (2 ≤ (["id"] : List String).length →
          ∀ q ∈ qs, ∃ g, q = PkQuery.orOfAnd g (["id"] : List String).length
            ∧ 0 < g ∧ g ≤ 4))
    ∧ (∃ qs,
        fetchByPkPlan 1000 ["pk"]
            (List.map (fun n => [Int.ofNat n]) (List.range 100000)) = some qs
          ∧ qs.length = 100) := by
  constructor
  · have := c8_fetch_by_pk_batching.1 4 ["id"] [[1], [2], [3], [4], [5], [6]]
      (by decide)
    simpa using this
  · exact c8_fetch_by_pk_batching.2 _ ("pk")
      (by rw [List.length_map, List.length_range])

/-! ### C3 -/

theorem validateWhereClause_ok_iff (s : String) (hne : s.data ≠ []) :
    validateWhereClause s = WhereCheck.ok ↔
      (searchDollarQuote (stripDoubleQuoted (stripSingleQuoted s.data)) = false
       ∧ searchEscString (stripDoubleQuoted (stripSingleQuoted s.data)) = false
       ∧ (∀ kw ∈ dangerousSqlKeywords,
           searchWB kw.data
             ((stripDoubleQuoted (stripSingleQuoted s.data)).map Char.toUpper)
             = false)
       ∧ (∀ f ∈ dangerousPgFunctions,
           searchFuncCall f.data
             ((stripDoubleQuoted (stripSingleQuoted s.data)).map Char.toLower)
             = false)
       ∧ searchSubquery
           ((stripDoubleQuoted (stripSingleQuoted s.data)).map Char.toUpper)
           = false
       ∧ hasSub ((":".data) ++ (":".data))
           (stripDoubleQuoted (stripSingleQuoted s.data)) = false
       ∧ hasSub ((";".data))
           (stripDoubleQuoted (stripSingleQuoted s.data)) = false
       ∧ hasSub (("--".data))
           (stripDoubleQuoted (stripSingleQuoted s.data)) = false
       ∧ hasSub (("/*".data))
           (stripDoubleQuoted (stripSingleQuoted s.data)) = false
       ∧ hasSub (("*/".data))
           (stripDoubleQuoted (stripSingleQuoted s.data)) = false) := by
  have h0 : s.data.isEmpty = false := by
    cases hd : s.data with
    | nil => exact absurd hd hne
    | cons a l => rfl
  simp only [validateWhereClause, h0, Bool.false_eq_true, if_false]
  cases h1 : searchDollarQuote (stripDoubleQuoted (stripSingleQuoted s.data)) with
  | true => simp [h1]
  | false =>
    simp only [if_false, Bool.false_eq_true]
    cases h2 : searchEscString (stripDoubleQuoted (stripSingleQuoted s.data)) with
    | true => simp [h2]
    | false =>
      simp only [if_false, Bool.false_eq_true]
      cases h3 : dangerousSqlKeywords.find?
          (fun kw => searchWB kw.data
            ((stripDoubleQuoted (stripSingleQuoted s.data)).map Char.toUpper)) with
      | some kw =>
        have hkw : searchWB kw.data
            ((stripDoubleQuoted (stripSingleQuoted s.data)).map Char.toUpper)
            = true := by
          have := List.find?_some h3
          simpa using this
        have hmem : kw ∈ dangerousSqlKeywords := List.mem_of_find?_eq_some h3
        simp only [h3]
        constructor
        · intro hcontra; cases hcontra
        · rintro ⟨-, -, hall, -⟩
          have := hall kw hmem
          rw [hkw] at this
          cases this
      | none =>
        have hall3 : ∀ kw ∈ dangerousSqlKeywords,
            searchWB kw.data
              ((stripDoubleQuoted (stripSingleQuoted s.data)).map Char.toUpper)
              = false := by
          intro kw hkw
          have := List.find?_eq_none.mp h3 kw hkw
          simpa using this
        simp only [h3]
        cases h4 : dangerousPgFunctions.find?
            (fun f => searchFuncCall f.data
              ((stripDoubleQuoted (stripSingleQuoted s.data)).map
                Char.toLower)) with
        | some f =>
          have hf : searchFuncCall f.data
              ((stripDoubleQuoted (stripSingleQuoted s.data)).map Char.toLower)
              = true := by
            have := List.find?_some h4
            simpa using this
          have hmem : f ∈ dangerousPgFunctions := List.mem_of_find?_eq_some h4
          simp only [h4]
          constructor
          · intro hcontra; cases hcontra
          · rintro ⟨-, -, -, hall, -⟩
            have := hall f hmem
            rw [hf] at this
            cases this
        | none =>
          have hall4 : ∀ f ∈ dangerousPgFunctions,
              searchFuncCall f.data
                ((stripDoubleQuoted (stripSingleQuoted s.data)).map
                  Char.toLower) = false := by
            intro f hf
            have := List.find?_eq_none.mp h4 f hf
            simpa using this
          simp only [h4]
          cases h5 : searchSubquery
              ((stripDoubleQuoted (stripSingleQuoted s.data)).map
                Char.toUpper) with
          | true => simp [h5]
          | false =>
            simp only [if_false, Bool.false_eq_true]
            cases h6 : hasSub ((":".data) ++ (":".data))
                (stripDoubleQuoted (stripSingleQuoted s.data)) with
            | true => simp [h5, h6]
            | false =>
              simp only [if_false, Bool.false_eq_true]
              cases h7 : hasSub ((";".data))
                  (stripDoubleQuoted (stripSingleQuoted s.data)) with
              | true => simp [h5, h6, h7]
              | false =>
                simp only [if_false, Bool.false_eq_true]
                cases h8 : (hasSub (("--".data))
                      (stripDoubleQuoted (stripSingleQuoted s.data))
                    || hasSub (("/*".data))
                      (stripDoubleQuoted (stripSingleQuoted s.data))
                    || hasSub (("*/".data))
                      (stripDoubleQuoted (stripSingleQuoted s.data))) with
                | true =>
                  simp only [h8, if_true]
                  rcases Bool.or_eq_true_iff.mp h8 with h9 | h9
                  · rcases Bool.or_eq_true_iff.mp h9 with h10 | h10
                    · simp [h5, h6, h7, h10]
                    · simp [h5, h6, h7, h10]
                  · simp [h5, h6, h7, h9]
                | false =>
                  rcases Bool.or_eq_false_iff.mp h8 with ⟨h9, h11⟩
                  rcases Bool.or_eq_false_iff.mp h9 with ⟨h10, h12⟩
                  simp only [h1, h2, h5, h6, h7, h8, h10, h11, h12,
                    Bool.false_eq_true, if_false, and_true, true_and]
                  constructor
                  · intro himp
                    exact ⟨hall3, hall4⟩
                  · intro himp
                    trivial

/-- C3 counterexample: the claim states that
`id=1; DROP TABLE users` is rejected citing `;`.  It is rejected, but the
dangerous-keyword loop runs before the semicolon check, so the cited
construct is `DROP` (the only dangerous keyword present, hence the citation
is independent of the keyword set's iteration order), not `;`. -/
theorem c3_counterexample :
    validateWhereClause ("id=1; DROP TABLE users") = .insecure ("DROP")
    ∧ ("DROP" : String) ≠ (";") := by
  decide

/-- C3 (amended): the filter accepts a clause iff its NFKC-normalized,
string-literal-stripped text contains none of the forbidden constructs
(dollar quoting, escape string, word-boundary dangerous keyword, dangerous
function call, subquery, `::` cast, semicolon, comment sequence) — so every
clause with a forbidden construct outside string literals is rejected and
every clause containing only comparison/logical operators and literals is
accepted; `id=1; DROP TABLE users` is rejected citing `DROP` (the keyword
check precedes the semicolon check), `id IN (SELECT id FROM sessions)` is
rejected citing the subquery, and `status = 'DROP'` is accepted because
`DROP` sits inside a string literal. -/
theorem c3_where_filter :
    (∀ s : String, s.data ≠ [] →
      (validateWhereClause s = WhereCheck.ok ↔
        (searchDollarQuote (stripDoubleQuoted (stripSingleQuoted s.data))
            = false
         ∧ searchEscString (stripDoubleQuoted (stripSingleQuoted s.data))
            = false
         ∧ (∀ kw ∈ dangerousSqlKeywords,
             searchWB kw.data
               ((stripDoubleQuoted (stripSingleQuoted s.data)).map
                 Char.toUpper) = false)
         ∧ (∀ f ∈ dangerousPgFunctions,
             searchFuncCall f.data
               ((stripDoubleQuoted (stripSingleQuoted s.data)).map
                 Char.toLower) = false)
         ∧ searchSubquery
             ((stripDoubleQuoted (stripSingleQuoted s.data)).map Char.toUpper)
             = false
         ∧ hasSub ((":".data) ++ (":".data))
             (stripDoubleQuoted (stripSingleQuoted s.data)) = false
         ∧ hasSub ((";".data))
             (stripDoubleQuoted (stripSingleQuoted s.data)) = false
         ∧ hasSub (("--".data))
             (stripDoubleQuoted (stripSingleQuoted s.data)) = false
         ∧ hasSub (("/*".data))
             (stripDoubleQuoted (stripSingleQuoted s.data)) = false
         ∧ hasSub (("*/".data))
             (stripDoubleQuoted (stripSingleQuoted s.data)) = false)))
    ∧ validateWhereClause ("id=1; DROP TABLE users") = .insecure ("DROP")
    ∧ validateWhereClause ("id IN (SELECT id FROM sessions)")
        = .insecure ("subquery (SELECT)")
    ∧ validateWhereClause ("status = " ++ squoteStr ++ "DROP" ++ squoteStr)
        = .ok :=
  ⟨validateWhereClause_ok_iff, by decide, by decide, by decide⟩

/-- C3 witness: the characterization applied at the concrete clause
`x = 1 AND y < 2`, which contains only comparison/logical operators and
literals and is accepted. -/
theorem c3_witness :
    validateWhereClause ("x = 1 AND y < 2") = WhereCheck.ok :=
  ((c3_where_filter.1 ("x = 1 AND y < 2") (by decide)).mpr (by decide))

/-! ### C4 -/

theorem selectFallback_mem {l : List ForeignKey} {fk : ForeignKey}
    (h : selectFallback l = some fk) : fk ∈ l := by
  unfold selectFallback at h
  cases hf : l.filter (fun fk => fk.source_columns.length = 1) with
  | cons a rest =>
    rw [hf] at h
    cases h
    have hm : fk ∈ l.filter (fun fk => fk.source_columns.length = 1) := by
      rw [hf]
      exact List.mem_cons_self _ _
    exact List.mem_of_mem_filter hm
  | nil =>
    rw [hf] at h
    cases l with
    | nil => cases h
    | cons b bs =>
      simp only [List.head?] at h
      cases h
      exact List.mem_cons_self _ _

theorem selectNullableFkToBreak_mem {cycleFks : List ForeignKey}
    {c : Option (List String)} {fk : ForeignKey}
    (h : selectNullableFkToBreak cycleFks c = some fk) :
    fk ∈ cycleFks ∧ fk.is_nullable = true := by
  have sub : ∀ g : ForeignKey,
      g ∈ cycleFks.filter (fun fk => fk.is_nullable) →
      g ∈ cycleFks ∧ g.is_nullable = true := fun g hg =>
    ⟨List.mem_of_mem_filter hg, by simpa using List.of_mem_filter hg⟩
  unfold selectNullableFkToBreak at h
  cases hnf : cycleFks.filter (fun fk => fk.is_nullable) with
  | nil =>
    rw [hnf] at h
    simp at h
  | cons n0 nrest =>
    rw [hnf] at h
    have hnfMem : ∀ g : ForeignKey, g ∈ n0 :: nrest →
        g ∈ cycleFks ∧ g.is_nullable = true := by
      intro g hg
      exact sub g (hnf ▸ hg)
    simp only at h
    split at h
    · split at h
      · rename_i a arest hsr
        cases h
        have hin : fk ∈ (n0 :: nrest).filter
            (fun fk => fk.is_self_referential) := by
          rw [hsr]
          exact List.mem_cons_self _ _
        exact hnfMem _ (List.mem_of_mem_filter hin)
      · exact hnfMem _ (selectFallback_mem h)
    · split at h
      · exact hnfMem _ (selectFallback_mem h)
      · rename_i i0 irest hit
        have hitMem : ∀ g : ForeignKey, g ∈ i0 :: irest →
            g ∈ cycleFks ∧ g.is_nullable = true := by
          intro g hg
          have hg2 : g ∈ (n0 :: nrest).filter
              (fun fk => ¬ fk.is_self_referential) := by
            rw [hit]
            exact hg
          exact hnfMem _ (List.mem_of_mem_filter hg2)
        split at h
        · rename_i b brest hsc
          cases h
          have hin : fk ∈ (i0 :: irest).filter
              (fun fk => fk.source_columns.length = 1) := by
            rw [hsc]
            exact List.mem_cons_self _ _
          exact hitMem _ (List.mem_of_mem_filter hin)
        · cases h
          exact hitMem _ (List.mem_cons_self _ _)

theorem breakGo_discipline (schema : SchemaGraph) :
    ∀ (cycles : List (List String)) (fks : List ForeignKey)
      (infos : List CycleInfo) (fksOut : List ForeignKey)
      (infosOut : List CycleInfo),
      breakGo schema cycles fks infos = .ok (fksOut, infosOut) →
      (∀ fk ∈ fks, ∃ info ∈ infos, fk ∈ info.fks_in_cycle) →
      (∀ info ∈ infos, ∃ fk ∈ fks, fk ∈ info.fks_in_cycle) →
      fks.Nodup →
      ((∀ fk ∈ fksOut, ∃ info ∈ infosOut, fk ∈ info.fks_in_cycle)
       ∧ (∀ info ∈ infosOut, ∃ fk ∈ fksOut, fk ∈ info.fks_in_cycle)
       ∧ fksOut.Nodup) := by
  intro cycles
  induction cycles with
  | nil =>
    intro fks infos fksOut infosOut h hA hB hN
    simp only [breakGo, Except.ok.injEq, Prod.mk.injEq] at h
    obtain ⟨h1, h2⟩ := h
    subst h1; subst h2
    exact ⟨hA, hB, hN⟩
  | cons cycle rest ih =>
    intro fks infos fksOut infosOut h hA hB hN
    simp only [breakGo] at h
    cases hs : selectNullableFkToBreak (identifyCycleFks schema cycle)
        (some cycle) with
    | none => rw [hs] at h; cases h
    | some nfk =>
      rw [hs] at h
      have hmem : nfk ∈ identifyCycleFks schema cycle :=
        (selectNullableFkToBreak_mem hs).1
      have hnfkNew : nfk ∈ (if nfk ∈ fks then fks else fks ++ [nfk]) := by
        by_cases hin : nfk ∈ fks
        · simpa [hin] using hin
        · simp [hin]
      refine ih _ _ _ _ h ?_ ?_ ?_
      · intro fk hfk
        by_cases hin : nfk ∈ fks
        · rw [if_pos hin] at hfk
          obtain ⟨info, hi, hfi⟩ := hA fk hfk
          exact ⟨info, List.mem_append_left _ hi, hfi⟩
        · rw [if_neg hin] at hfk
          rcases List.mem_append.mp hfk with hfk | hfk
          · obtain ⟨info, hi, hfi⟩ := hA fk hfk
            exact ⟨info, List.mem_append_left _ hi, hfi⟩
          · have : fk = nfk := by simpa using hfk
            subst this
            exact ⟨⟨cycle, identifyCycleFks schema cycle⟩,
              List.mem_append_right _ (List.mem_singleton_self _), hmem⟩
      · intro info hinfo
        rcases List.mem_append.mp hinfo with hinfo | hinfo
        · obtain ⟨fk, hf, hfi⟩ := hB info hinfo
          refine ⟨fk, ?_, hfi⟩
          by_cases hin : nfk ∈ fks
          · simpa [hin] using hf
          · simp [hin, List.mem_append]
            left
            exact hf
        · have : info = ⟨cycle, identifyCycleFks schema cycle⟩ := by
            simpa using hinfo
          subst this
          exact ⟨nfk, hnfkNew, hmem⟩
      · by_cases hin : nfk ∈ fks
        · simpa [hin] using hN
        · rw [if_neg hin]
          rw [List.nodup_append]
          exact ⟨hN, List.nodup_singleton _, by simpa using hin⟩

/-- C4 (amended): after cycle resolution, every FK in `broken_fks` belongs
to the FK edge set of at least one detected cycle, every detected cycle has
at least one of its FKs in `broken_fks`, and an FK shared by several cycles
is recorded once (`broken_fks` has no duplicates).  However — contrary to
the final part of the claim — the dependency graph with the broken FKs'
edges removed need not be acyclic: the DFS enumeration records a cycle only
at a back edge into the recursion stack and skips already-visited nodes, so
it can miss cycles, and the second topological sort then raises an uncaught
`graphlib.CycleError` (see the counterexample). -/
theorem c4_broken_fk_discipline (schema : SchemaGraph) (deps : Deps)
    (fks : List ForeignKey) (infos : List CycleInfo)
    (h : breakCyclesAtNullableFks schema deps = .ok (fks, infos)) :
    (∀ fk ∈ fks, ∃ info ∈ infos, fk ∈ info.fks_in_cycle)
    ∧ (∀ info ∈ infos, ∃ fk ∈ fks, fk ∈ info.fks_in_cycle)
    ∧ fks.Nodup := by
  unfold breakCyclesAtNullableFks at h
  cases hc : findCyclesDfs deps with
  | nil =>
    rw [hc] at h
    simp only [Except.ok.injEq, Prod.mk.injEq] at h
    obtain ⟨h1, h2⟩ := h
    subst h1; subst h2
    refine ⟨?_, ?_, List.nodup_nil⟩ <;> intro x hx <;> cases hx
  | cons c rest =>
    rw [hc] at h
    exact breakGo_discipline schema _ [] [] fks infos h
      (by intro fk hfk; cases hfk) (by intro info hinfo; cases hinfo)
      List.nodup_nil

/-- C4 counterexample: the diamond graph `a→b→d→a`, `a→c→d→a` (all FKs
nullable, single-column).  The DFS finds only the cycle `[a, b, d]` (when
it later reaches `d` through `c`, `d` is already visited), cycle breaking
chooses the FK `a→b`, the cycle `a→c→d→a` survives edge removal, and the
second topological sort raises an uncaught `CycleError` — so the reduced
graph is not acyclic and the subsequent sort does not succeed. -/
theorem c4_counterexample :
    breakCyclesAtNullableFks diamondSchema
        (buildDependencies diamondSchema ["a", "b", "c", "d"])
      = .ok ([mkNullableFk ("ab") ("a") ("b")],
          [⟨["a", "b", "d"],
            [mkNullableFk ("ab") ("a") ("b"), mkNullableFk ("bd") ("b") ("d"),
             mkNullableFk ("da") ("d") ("a")]⟩])
    ∧ topologicalSortEngine diamondSchema ["a", "b", "c", "d"]
        = TopoOutcome.cycleErrorUncaught := by
  constructor
  · rfl
  · decide

/-- C4 witness: the amended theorem applied to the diamond schema, whose
cycle resolution succeeds with `a→b` broken for the (single) detected cycle
`[a, b, d]`. -/
theorem c4_witness :
    (∀ fk ∈ ([mkNullableFk ("ab") ("a") ("b")] : List ForeignKey),
      ∃ info ∈ ([⟨["a", "b", "d"],
          [mkNullableFk ("ab") ("a") ("b"), mkNullableFk ("bd") ("b") ("d"),
           mkNullableFk ("da") ("d") ("a")]⟩] : List CycleInfo),
        fk ∈ info.fks_in_cycle)
    ∧ (∀ info ∈ ([⟨["a", "b", "d"],
          [mkNullableFk ("ab") ("a") ("b"), mkNullableFk ("bd") ("b") ("d"),
           mkNullableFk ("da") ("d") ("a")]⟩] : List CycleInfo),
        ∃ fk ∈ ([mkNullableFk ("ab") ("a") ("b")] : List ForeignKey),
          fk ∈ info.fks_in_cycle)
    ∧ ([mkNullableFk ("ab") ("a") ("b")] : List ForeignKey).Nodup :=
  c4_broken_fk_discipline diamondSchema
    (buildDependencies diamondSchema ["a", "b", "c", "d"]) _ _ (by rfl)

/-! ### C5 -/

theorem mem_addUnique_left {acc : List String} {x : String} (y : String)
    (h : x ∈ acc) : x ∈ addUnique acc y := by
  unfold addUnique
  split
  · exact h
  · exact List.mem_append_left _ h

theorem mem_addUnique_self (acc : List String) (y : String) :
    y ∈ addUnique acc y := by
  unfold addUnique
  split
  · assumption
  · exact List.mem_append_right _ (List.mem_singleton_self _)

theorem foldl_addUnique_mem {β : Type} (f : β → String) :
    ∀ (l : List β) (acc : List String) (x : String),
      (x ∈ acc ∨ ∃ b ∈ l, f b = x) →
      x ∈ l.foldl (fun a b => addUnique a (f b)) acc := by
  intro l
  induction l with
  | nil =>
    intro acc x h
    rcases h with h | ⟨b, hb, _⟩
    · exact h
    · cases hb
  | cons b bs ih =>
    intro acc x h
    simp only [List.foldl_cons]
    apply ih
    rcases h with h | ⟨b', hb', hf⟩
    · exact Or.inl (mem_addUnique_left _ h)
    · rcases List.mem_cons.mp hb' with hb' | hb'
      · subst hb'
        exact Or.inl (hf ▸ mem_addUnique_self acc (f b'))
      · exact Or.inr ⟨b', hb', hf⟩

theorem assoc_nodup_eq {α β : Type} [DecidableEq α] :
    ∀ (l : List (α × β)) (t : α) (a b : β),
      (l.map Prod.fst).Nodup → (t, a) ∈ l → (t, b) ∈ l → a = b := by
  intro l
  induction l with
  | nil => intro t a b _ ha; cases ha
  | cons p rest ih =>
    intro t a b hnd ha hb
    rw [List.map_cons, List.nodup_cons] at hnd
    rcases List.mem_cons.mp ha with ha | ha <;>
      rcases List.mem_cons.mp hb with hb | hb
    · rw [← hb] at ha
      exact congrArg Prod.snd ha
    · exfalso
      apply hnd.1
      have : t = p.1 := by rw [← ha]
      rw [← this]
      exact List.mem_map_of_mem Prod.fst hb
    · exfalso
      apply hnd.1
      have : t = p.1 := by rw [← hb]
      rw [← this]
      exact List.mem_map_of_mem Prod.fst ha
    · exact ih t a b hnd.2 ha hb

theorem kahnGo_spec :
    ∀ (fuel : Nat) (rem : Deps) (acc order : List String),
      kahnGo fuel rem acc = some order →
      (rem.map Prod.fst).Nodup →
      (∃ tail, order = acc ++ tail)
      ∧ (∀ t ds d, (t, ds) ∈ rem → d ∈ ds →
          ∃ l1 l2, order = l1 ++ l2 ∧ d ∈ l1 ∧ t ∈ l2) := by
  intro fuel
  induction fuel with
  | zero =>
    intro rem acc order h hnd
    cases rem with
    | nil =>
      simp only [kahnGo, Option.some.injEq] at h
      subst h
      exact ⟨⟨[], (List.append_nil acc).symm⟩, by intro t ds d hm; cases hm⟩
    | cons r0 rrest => simp [kahnGo] at h
  | succ n ih =>
    intro rem acc order h hnd
    cases rem with
    | nil =>
      simp only [kahnGo, Option.some.injEq] at h
      subst h
      exact ⟨⟨[], (List.append_nil acc).symm⟩, by intro t ds d hm; cases hm⟩
    | cons r0 rrest =>
      rw [kahnGo] at h
      cases hready : (r0 :: rrest).filter
          (fun p => p.2.all (fun d => d ∈ acc)) with
      | nil => rw [hready] at h; cases h
      | cons ready0 readyRest =>
        rw [hready] at h
        simp only at h
        -- h : kahnGo n (filtered) (acc ++ names) = some order
        have hsub : ((r0 :: rrest).filter
            (fun p => p.1 ∉ (ready0 :: readyRest).map (fun p => p.1))).map
              Prod.fst |>.Nodup :=
          List.Nodup.sublist (List.Sublist.map _ (List.filter_sublist _)) hnd
        obtain ⟨⟨tail, htail⟩, hprec⟩ := ih _ _ _ h hsub
        constructor
        · exact ⟨(ready0 :: readyRest).map (fun p => p.1) ++ tail,
            by rw [htail, List.append_assoc]⟩
        · intro t ds d hmem hd
          by_cases hp : ds.all (fun x => x ∈ acc)
          · -- (t, ds) is ready in this round
            have hdacc : d ∈ acc := by
              have := List.all_eq_true.mp hp d hd
              simpa using this
            have htds : (t, ds) ∈ (r0 :: rrest).filter
                (fun p => p.2.all (fun d => d ∈ acc)) := by
              rw [List.mem_filter]
              exact ⟨hmem, hp⟩
            have htn : t ∈ (ready0 :: readyRest).map (fun p => p.1) := by
              rw [← hready]
              exact List.mem_map_of_mem _ htds
            refine ⟨acc, (ready0 :: readyRest).map (fun p => p.1) ++ tail,
              by rw [htail, List.append_assoc], hdacc,
              List.mem_append_left _ htn⟩
          · -- (t, ds) survives to the next round
            have htnot : t ∉ (ready0 :: readyRest).map (fun p => p.1) := by
              intro htn
              rw [← hready] at htn
              obtain ⟨q, hq, hq1⟩ := List.mem_map.mp htn
              have hqrem : q ∈ r0 :: rrest := List.mem_of_mem_filter hq
              have hqds : q.2 = ds := by
                apply assoc_nodup_eq (r0 :: rrest) t _ _ hnd _ hmem
                rw [← hq1]
                exact hqrem
              have hqall := List.of_mem_filter hq
              rw [hqds] at hqall
              exact hp hqall
            have : (t, ds) ∈ (r0 :: rrest).filter
                (fun p => p.1 ∉ (ready0 :: readyRest).map (fun p => p.1)) := by
              rw [List.mem_filter]
              exact ⟨hmem, by simpa using htnot⟩
            exact hprec t ds d this hd

theorem buildDependencies_keys (schema : SchemaGraph) (tables : List String) :
    (buildDependencies schema tables).map Prod.fst = tables := by
  unfold buildDependencies
  rw [List.map_map]
  exact List.map_id'' (fun x => rfl) tables

theorem mem_buildDependencies (schema : SchemaGraph) (tables : List String)
    (t : String) (ht : t ∈ tables) :
    (t, (schema.edges.filter
        (fun fk => fk.source_table = t ∧ fk.target_table ∈ tables)).foldl
      (fun acc fk => addUnique acc fk.target_table) []) ∈
      buildDependencies schema tables := by
  unfold buildDependencies
  exact List.mem_map_of_mem _ ht

theorem target_mem_buildDeps (schema : SchemaGraph) (tables : List String)
    (fk : ForeignKey) (hfk : fk ∈ schema.edges)
    (hs : fk.source_table ∈ tables) (ht : fk.target_table ∈ tables) :
    fk.target_table ∈ (schema.edges.filter
        (fun g => g.source_table = fk.source_table
          ∧ g.target_table ∈ tables)).foldl
      (fun acc g => addUnique acc g.target_table) [] := by
  apply foldl_addUnique_mem
  right
  refine ⟨fk, ?_, rfl⟩
  rw [List.mem_filter]
  refine ⟨hfk, ?_⟩
  simp [ht]

/-- C5 (amended): for every extraction returning an `insert_order` and for
every *real* (catalog) FK edge from source table s to target table t with
both s and t among the extracted tables, t precedes s in `insert_order` —
provided no broken FK shares the dependency edge (s, t) (breaking one of
several parallel FKs removes the whole (s, t) edge from the dependency
graph).  Virtual FK edges do not constrain `insert_order` at all:
`_topological_sort` reads only `schema.edges`, and `add_virtual_fk` appends
only to `virtual_edges` (see the counterexample). -/
theorem c5_topological_order_real_edges (schema : SchemaGraph)
    (tables : List String) (order : List String) (fks : List ForeignKey)
    (infos : List CycleInfo) (hnodup : tables.Nodup)
    (h : topologicalSortEngine schema tables = TopoOutcome.ok order fks infos)
    (fk : ForeignKey) (hfk : fk ∈ schema.edges)
    (hs : fk.source_table ∈ tables) (ht : fk.target_table ∈ tables)
    (hnb : ∀ bfk ∈ fks, ¬ (bfk.source_table = fk.source_table
      ∧ bfk.target_table = fk.target_table)) :
    precedesIn order fk.target_table fk.source_table := by
  have hkeys : ((buildDependencies schema tables).map Prod.fst).Nodup := by
    rw [buildDependencies_keys]
    exact hnodup
  unfold topologicalSortEngine at h
  dsimp only at h
  cases h1 : topoSortKahn (buildDependencies schema tables) with
  | some ord =>
    rw [h1] at h
    simp only [TopoOutcome.ok.injEq] at h
    obtain ⟨ho, _, _⟩ := h
    subst ho
    have hspec := kahnGo_spec _ _ _ _ h1 hkeys
    exact hspec.2 fk.source_table _ fk.target_table
      (mem_buildDependencies schema tables fk.source_table hs)
      (target_mem_buildDeps schema tables fk hfk hs ht)
  | none =>
    rw [h1] at h
    cases h2 : breakCyclesAtNullableFks schema
        (buildDependencies schema tables) with
    | error msg => rw [h2] at h; cases h
    | ok pair =>
      rw [h2] at h
      obtain ⟨fksB, infosB⟩ := pair
      dsimp only at h
      cases h3 : topoSortKahn
          ((buildDependencies schema tables).map (fun p =>
            (p.1, p.2.filter (fun d =>
              ¬ fksB.any (fun g => g.source_table = p.1
                ∧ g.target_table = d))))) with
      | none => rw [h3] at h; cases h
      | some ord =>
        rw [h3] at h
        simp only [TopoOutcome.ok.injEq] at h
        obtain ⟨ho, hfksEq, _⟩ := h
        subst ho
        subst hfksEq
        have hkeys2 : (((buildDependencies schema tables).map (fun p =>
            (p.1, p.2.filter (fun d =>
              ¬ fksB.any (fun g => g.source_table = p.1
                ∧ g.target_table = d))))).map Prod.fst).Nodup := by
          rw [List.map_map]
          exact hkeys
        have hspec := kahnGo_spec _ _ _ _ h3 hkeys2
        apply hspec.2 fk.source_table _ fk.target_table
        · exact List.mem_map_of_mem _
            (mem_buildDependencies schema tables fk.source_table hs)
        · rw [List.mem_filter]
          refine ⟨target_mem_buildDeps schema tables fk hfk hs ht, ?_⟩
          simp only [List.any_eq_true, not_exists, not_and, decide_eq_true_eq]
          intro g hg hc1 hc2
          exact hnb g hg ⟨hc1, hc2⟩

/-- C5 counterexample: the claim includes virtual FK edges, but
`_topological_sort` reads only `schema.edges`.  With a single virtual FK
`a → b` (and no broken FKs), the returned order is `[a, b]`: the virtual
edge's target does not precede its source. -/
theorem c5_counterexample :
    topologicalSortEngine vfkOnlySchema ["a", "b"]
        = TopoOutcome.ok ["a", "b"] [] []
    ∧ (vfkOnlySchema.virtual_edges.map
        (fun v => (v.source_table, v.target_table))) = [("a", "b")]
    ∧ ¬ precedesIn ["a", "b"] ("b") ("a") := by
  refine ⟨by decide, by decide, ?_⟩
  rintro ⟨l1, l2, hsplit, hb, ha⟩
  cases l1 with
  | nil => cases hb
  | cons x l1' =>
    rw [List.cons_append] at hsplit
    simp only [List.cons.injEq] at hsplit
    obtain ⟨hx1, hx2⟩ := hsplit
    rcases List.mem_cons.mp hb with hb1 | hb1
    · exact absurd (hx1.trans hb1.symm) (by decide)
    · cases l1' with
      | nil => cases hb1
      | cons y l1'' =>
        rw [List.cons_append] at hx2
        simp only [List.cons.injEq] at hx2
        obtain ⟨hy, hrest⟩ := hx2
        have hl2 : l2 = [] := (List.append_eq_nil.mp hrest.symm).2
        rw [hl2] at ha
        cases ha

/-- C5 witness: the amended theorem applied to the concrete schema with the
real FK `orders → users`: in the returned order, `users` precedes
`orders`. -/
theorem c5_witness : precedesIn ["users", "orders"] ("users") ("orders") :=
  c5_topological_order_real_edges ordersUsersSchema ["orders", "users"]
    ["users", "orders"] [] [] (by decide) rfl ordersUsersFk (by decide)
    (by decide) (by decide) (by intro bfk hbfk; cases hbfk)

/-! ### C6 -/

theorem selectFallback_ne_none {l : List ForeignKey} (h : l ≠ []) :
    ∃ fk, selectFallback l = some fk := by
  unfold selectFallback
  cases hf : l.filter (fun fk => fk.source_columns.length = 1) with
  | cons a rest => exact ⟨a, rfl⟩
  | nil =>
    cases l with
    | nil => exact absurd rfl h
    | cons b bs => exact ⟨b, rfl⟩

theorem selectNullableFkToBreak_eq_none_iff (cycleFks : List ForeignKey)
    (c : Option (List String)) :
    selectNullableFkToBreak cycleFks c = none ↔
      cycleFks.filter (fun fk => fk.is_nullable) = [] := by
  constructor
  · intro h
    by_contra hne
    unfold selectNullableFkToBreak at h
    cases hnf : cycleFks.filter (fun fk => fk.is_nullable) with
    | nil => exact hne hnf
    | cons n0 nrest =>
      rw [hnf] at h
      simp only at h
      split at h
      · split at h
        · cases h
        · obtain ⟨fk, hfk⟩ := selectFallback_ne_none
            (l := n0 :: nrest) (by intro hcon; cases hcon)
          rw [hfk] at h
          cases h
      · split at h
        · obtain ⟨fk, hfk⟩ := selectFallback_ne_none
            (l := n0 :: nrest) (by intro hcon; cases hcon)
          rw [hfk] at h
          cases h
        · split at h
          · cases h
          · cases h
  · intro h
    unfold selectNullableFkToBreak
    rw [h]

theorem breakGo_error (schema : SchemaGraph) :
    ∀ (cycles : List (List String)) (fks : List ForeignKey)
      (infos : List CycleInfo),
      (∃ c ∈ cycles,
        selectNullableFkToBreak (identifyCycleFks schema c) (some c) = none) →
      ∃ c0 ∈ cycles,
        selectNullableFkToBreak (identifyCycleFks schema c0) (some c0) = none
        ∧ breakGo schema cycles fks infos
            = .error (noNullableMsg c0 (identifyCycleFks schema c0)) := by
  intro cycles
  induction cycles with
  | nil =>
    intro fks infos h
    obtain ⟨c, hc, _⟩ := h
    cases hc
  | cons cycle rest ih =>
    intro fks infos h
    cases hs : selectNullableFkToBreak (identifyCycleFks schema cycle)
        (some cycle) with
    | none =>
      refine ⟨cycle, List.mem_cons_self _ _, hs, ?_⟩
      simp only [breakGo, hs]
    | some nfk =>
      obtain ⟨c, hc, hsel⟩ := h
      have hcr : c ∈ rest := by
        rcases List.mem_cons.mp hc with hceq | hcr
        · subst hceq
          rw [hs] at hsel
          cases hsel
        · exact hcr
      obtain ⟨c0, h1, h2, h3⟩ := ih
          (if nfk ∈ fks then fks else fks ++ [nfk])
          (infos ++ [⟨cycle, identifyCycleFks schema cycle⟩]) ⟨c, hcr, hsel⟩
      refine ⟨c0, List.mem_cons_of_mem _ h1, h2, ?_⟩
      simp only [breakGo, hs]
      exact h3

theorem leadsWith_refl_append : ∀ (n y : List Char),
    leadsWith n (n ++ y) = true := by
  intro n y
  induction n with
  | nil => rfl
  | cons a as ih => simp [leadsWith, ih]

theorem hasSub_of_parts (x n y : List Char) :
    hasSub n (x ++ (n ++ y)) = true := by
  unfold hasSub
  rw [List.any_eq_true]
  exact ⟨n ++ y, (List.mem_tails _ _).mpr (List.suffix_append x (n ++ y)),
    leadsWith_refl_append n y⟩

theorem strContains_of_split {sub t : String} (x y : String)
    (h : t = x ++ (sub ++ y)) : strContains sub t = true := by
  subst h
  unfold strContains
  rw [String.data_append, String.data_append]
  exact hasSub_of_parts _ _ _

theorem strContains_of_mid {sub j : String} (p r x y : String)
    (hj : j = x ++ (sub ++ y)) (m : String) (hm : m = p ++ (j ++ r)) :
    strContains sub m = true := by
  apply strContains_of_split (p ++ x) (y ++ r)
  rw [hm, hj]
  simp [String.append_assoc]

theorem joinWith_mem_parts (sep : String) :
    ∀ (l : List String) (a : String), a ∈ l →
      ∃ x y : String, joinWith sep l = x ++ (a ++ y) := by
  intro l
  induction l with
  | nil => intro a ha; cases ha
  | cons b bs ih =>
    intro a ha
    cases bs with
    | nil =>
      have hab : a = b := by simpa using ha
      subst hab
      exact ⟨"", "", by simp [joinWith, String.empty_append,
        String.append_empty]⟩
    | cons c cs =>
      rcases List.mem_cons.mp ha with hab | ha2
      · subst hab
        refine ⟨"", sep ++ joinWith sep (c :: cs), ?_⟩
        simp [joinWith, String.empty_append, String.append_assoc]
      · obtain ⟨x, y, hxy⟩ := ih a ha2
        refine ⟨b ++ sep ++ x, y, ?_⟩
        simp only [joinWith, hxy]
        simp [String.append_assoc]

theorem noNullableMsg_contains_path (c : List String)
    (fks : List ForeignKey) :
    strContains (cyclePathStr c) (noNullableMsg c fks) = true := by
  apply strContains_of_split
    ("Circular dependency detected with no nullable foreign key to break.\n\n"
      ++ "Cycle path: ")
    ("\n\n" ++ "Foreign keys in cycle:\n"
      ++ joinWith ("\n") (fks.map fkDetailStr) ++ "\n\n"
      ++ "To resolve this issue, you can:\n"
      ++ "  1. Make one of the foreign keys nullable in your database schema\n"
      ++ "  2. Use PostgreSQL" ++ squoteStr
      ++ "s deferred constraints (if using PostgreSQL)\n"
      ++ "  3. Temporarily disable FK checks (use at your own risk)\n\n"
      ++ "Recommended: Make "
      ++ (match fks.head? with
          | some fk => fk.source_table ++ "."
              ++ joinWith (", ") fk.source_columns
          | none => "")
      ++ " nullable.")
  simp [noNullableMsg, String.append_assoc]

theorem noNullableMsg_contains_detail (c : List String)
    (fks : List ForeignKey) (fk : ForeignKey) (h : fk ∈ fks) :
    strContains (fkDetailStr fk) (noNullableMsg c fks) = true := by
  obtain ⟨x, y, hxy⟩ := joinWith_mem_parts ("\n") (fks.map fkDetailStr)
    (fkDetailStr fk) (List.mem_map_of_mem _ h)
  apply strContains_of_mid
    ("Circular dependency detected with no nullable foreign key to break.\n\n"
      ++ "Cycle path: " ++ cyclePathStr c ++ "\n\n"
      ++ "Foreign keys in cycle:\n")
    ("\n\n"
      ++ "To resolve this issue, you can:\n"
      ++ "  1. Make one of the foreign keys nullable in your database schema\n"
      ++ "  2. Use PostgreSQL" ++ squoteStr
      ++ "s deferred constraints (if using PostgreSQL)\n"
      ++ "  3. Temporarily disable FK checks (use at your own risk)\n\n"
      ++ "Recommended: Make "
      ++ (match fks.head? with
          | some fk => fk.source_table ++ "."
              ++ joinWith (", ") fk.source_columns
          | none => "")
      ++ " nullable.")
    x y hxy
  simp [noNullableMsg, String.append_assoc]

/-- C6: if a detected cycle has no nullable FK candidate under the
applicable selection rule — which, for the FK sets produced by
`identify_cycle_fks`, is equivalent to the cycle having no nullable FK at
all, as witnessed by the `selectNullableFkToBreak ... = none` conjunct —
cycle resolution fails with `CircularReferenceError` whose message
enumerates the full cycle path and every FK of the cycle with its
nullability annotation, and no alternative FK is chosen (the engine raises
instead of returning an order).  The witness instantiates this with the
two-table cycle whose FKs are both NOT NULL. -/
theorem c6_circular_reference_error (schema : SchemaGraph)
    (tables : List String) (cycle : List String)
    (hk : topoSortKahn (buildDependencies schema tables) = none)
    (hc : cycle ∈ findCyclesDfs (buildDependencies schema tables))
    (hnn : (identifyCycleFks schema cycle).filter
        (fun fk => fk.is_nullable) = []) :
    ∃ c0, c0 ∈ findCyclesDfs (buildDependencies schema tables)
      ∧ selectNullableFkToBreak (identifyCycleFks schema c0) (some c0) = none
      ∧ (identifyCycleFks schema c0).filter (fun fk => fk.is_nullable) = []
      ∧ topologicalSortEngine schema tables
          = TopoOutcome.circularReferenceError
              (noNullableMsg c0 (identifyCycleFks schema c0))
      ∧ strContains (cyclePathStr c0)
          (noNullableMsg c0 (identifyCycleFks schema c0)) = true
      ∧ ∀ fk ∈ identifyCycleFks schema c0,
          strContains (fkDetailStr fk)
            (noNullableMsg c0 (identifyCycleFks schema c0)) = true := by
  have hsel : selectNullableFkToBreak (identifyCycleFks schema cycle)
      (some cycle) = none :=
    (selectNullableFkToBreak_eq_none_iff _ _).mpr hnn
  cases hcy : findCyclesDfs (buildDependencies schema tables) with
  | nil => rw [hcy] at hc; cases hc
  | cons c1 rest =>
    rw [hcy] at hc
    obtain ⟨c0, h1, h2, h3⟩ := breakGo_error schema (c1 :: rest) [] []
      ⟨cycle, hc, hsel⟩
    have hbrk : breakCyclesAtNullableFks schema
        (buildDependencies schema tables)
        = .error (noNullableMsg c0 (identifyCycleFks schema c0)) := by
      unfold breakCyclesAtNullableFks
      rw [hcy]
      exact h3
    refine ⟨c0, h1, h2,
      (selectNullableFkToBreak_eq_none_iff _ _).mp h2, ?_,
      noNullableMsg_contains_path _ _,
      fun fk hfk => noNullableMsg_contains_detail _ _ _ hfk⟩
    unfold topologicalSortEngine
    simp only [hk, hbrk]

/-- C6 witness: the theorem applied to the concrete two-table cycle
`departments → employees → departments` with both FKs NOT NULL. -/
theorem c6_witness :
    ∃ c0, c0 ∈ findCyclesDfs
        (buildDependencies twoCycleSchema ["departments", "employees"])
      ∧ selectNullableFkToBreak (identifyCycleFks twoCycleSchema c0)
          (some c0) = none
      ∧ (identifyCycleFks twoCycleSchema c0).filter
          (fun fk => fk.is_nullable) = []
      ∧ topologicalSortEngine twoCycleSchema ["departments", "employees"]
          = TopoOutcome.circularReferenceError
              (noNullableMsg c0 (identifyCycleFks twoCycleSchema c0))
      ∧ strContains (cyclePathStr c0)
          (noNullableMsg c0 (identifyCycleFks twoCycleSchema c0)) = true
      ∧ ∀ fk ∈ identifyCycleFks twoCycleSchema c0,
          strContains (fkDetailStr fk)
            (noNullableMsg c0 (identifyCycleFks twoCycleSchema c0)) = true :=
  c6_circular_reference_error twoCycleSchema ["departments", "employees"]
    ["departments", "employees"] (by rfl) (by decide) (by rfl)

/-! ### C2 and C10: traversal lemmas, claim theorems and witnesses -/

theorem updMap_eval (m : String → Finset Ident) (k : String)
    (s : Finset Ident) (t : String) :
    updMap m k s t = if t = k then s else m t := rfl

theorem processUpEdge_cases (ad : RowAdapter) (cfg : TravConfig)
    (table : String) (pks : Finset Ident) (depth : Nat) (st : TravState)
    (edge : String × ForeignKey) :
    processUpEdge ad cfg table pks depth st edge = st
    ∨ ∃ newPks : Finset Ident, newPks ≠ ∅ ∧ edge.1 ∉ cfg.exclude_tables
      ∧ newPks = pks.biUnion (ad.fetchFkValuesRow table edge.2)
          \ st.visitedUp edge.1
      ∧ pks.biUnion (ad.fetchFkValuesRow table edge.2) ≠ ∅
      ∧ processUpEdge ad cfg table pks depth st edge
          = { records := updMap st.records edge.1 (st.records edge.1 ∪ newPks)
              visitedUp :=
                updMap st.visitedUp edge.1 (st.visitedUp edge.1 ∪ newPks)
              visitedDown := st.visitedDown
              queue := st.queue ++ [⟨edge.1, newPks, depth + 1, QDir.up⟩] } := by
  by_cases h1 : edge.1 ∈ cfg.exclude_tables
  · left
    simp only [processUpEdge, if_pos h1]
  · by_cases h2 : pks.biUnion (ad.fetchFkValuesRow table edge.2) = ∅
    · left
      simp only [processUpEdge, if_neg h1, if_pos h2]
    · by_cases h3 : pks.biUnion (ad.fetchFkValuesRow table edge.2)
          \ st.visitedUp edge.1 = ∅
      · left
        simp only [processUpEdge, if_neg h1, if_neg h2, if_pos h3]
      · right
        refine ⟨_, h3, h1, rfl, h2, ?_⟩
        simp only [processUpEdge, if_neg h1, if_neg h2, if_neg h3]

theorem processDownEdge_cases (ad : RowAdapter) (cfg : TravConfig)
    (table : String) (pks : Finset Ident) (depth : Nat) (st : TravState)
    (edge : String × ForeignKey) :
    processDownEdge ad cfg table pks depth st edge = st
    ∨ ∃ newPks : Finset Ident, newPks ≠ ∅ ∧ edge.1 ∉ cfg.exclude_tables
      ∧ newPks = pks.biUnion (ad.fetchReferencingPksRow edge.2)
          \ st.visitedDown edge.1
      ∧ ((newPks \ st.visitedUp edge.1 = ∅
          ∧ processDownEdge ad cfg table pks depth st edge
            = { records :=
                  updMap st.records edge.1 (st.records edge.1 ∪ newPks)
                visitedUp := st.visitedUp
                visitedDown :=
                  updMap st.visitedDown edge.1 (st.visitedDown edge.1 ∪ newPks)
                queue :=
                  st.queue ++ [⟨edge.1, newPks, depth + 1, QDir.down⟩] })
        ∨ (newPks \ st.visitedUp edge.1 ≠ ∅
          ∧ processDownEdge ad cfg table pks depth st edge
            = { records :=
                  updMap st.records edge.1 (st.records edge.1 ∪ newPks)
                visitedUp :=
                  updMap st.visitedUp edge.1
                    (st.visitedUp edge.1 ∪ (newPks \ st.visitedUp edge.1))
                visitedDown :=
                  updMap st.visitedDown edge.1 (st.visitedDown edge.1 ∪ newPks)
                queue :=
                  st.queue ++ [⟨edge.1, newPks, depth + 1, QDir.down⟩]
                    ++ [⟨edge.1, newPks \ st.visitedUp edge.1, depth + 1,
                        QDir.up⟩] })) := by
  by_cases h1 : edge.1 ∈ cfg.exclude_tables
  · left
    simp only [processDownEdge, if_pos h1]
  · by_cases h2 : pks.biUnion (ad.fetchReferencingPksRow edge.2) = ∅
    · left
      simp only [processDownEdge, if_neg h1, if_pos h2]
    · by_cases h3 : pks.biUnion (ad.fetchReferencingPksRow edge.2)
          \ st.visitedDown edge.1 = ∅
      · left
        simp only [processDownEdge, if_neg h1, if_neg h2, if_pos h3]
      · right
        refine ⟨_, h3, h1, rfl, ?_⟩
        by_cases h4 : (pks.biUnion (ad.fetchReferencingPksRow edge.2)
            \ st.visitedDown edge.1) \ st.visitedUp edge.1 = ∅
        · left
          refine ⟨h4, ?_⟩
          simp only [processDownEdge, if_neg h1, if_neg h2, if_neg h3,
            if_pos h4]
        · right
          refine ⟨h4, ?_⟩
          simp only [processDownEdge, if_neg h1, if_neg h2, if_neg h3,
            if_neg h4]

theorem upEdge_vUp_mono (ad : RowAdapter) (cfg : TravConfig) (table : String)
    (pks : Finset Ident) (depth : Nat) (st : TravState)
    (edge : String × ForeignKey) (t : String) :
    st.visitedUp t ⊆ (processUpEdge ad cfg table pks depth st edge).visitedUp t := by
  rcases processUpEdge_cases ad cfg table pks depth st edge with h | ⟨n, _, _, _, _, h⟩
  · rw [h]
  · rw [h]
    intro x hx
    simp only [updMap_eval]
    split
    · rename_i ht
      rw [ht] at hx
      exact Finset.mem_union_left _ hx
    · exact hx

theorem upEdge_records_mono (ad : RowAdapter) (cfg : TravConfig)
    (table : String) (pks : Finset Ident) (depth : Nat) (st : TravState)
    (edge : String × ForeignKey) (t : String) :
    st.records t ⊆ (processUpEdge ad cfg table pks depth st edge).records t := by
  rcases processUpEdge_cases ad cfg table pks depth st edge with h | ⟨n, _, _, _, _, h⟩
  · rw [h]
  · rw [h]
    intro x hx
    simp only [updMap_eval]
    split
    · rename_i ht
      rw [ht] at hx
      exact Finset.mem_union_left _ hx
    · exact hx

theorem upEdge_queue_sub (ad : RowAdapter) (cfg : TravConfig) (table : String)
    (pks : Finset Ident) (depth : Nat) (st : TravState)
    (edge : String × ForeignKey) (q : QItem) (hq : q ∈ st.queue) :
    q ∈ (processUpEdge ad cfg table pks depth st edge).queue := by
  rcases processUpEdge_cases ad cfg table pks depth st edge with h | ⟨n, _, _, _, _, h⟩
  · rw [h]; exact hq
  · rw [h]
    exact List.mem_append_left _ hq

theorem downEdge_vUp_mono (ad : RowAdapter) (cfg : TravConfig) (table : String)
    (pks : Finset Ident) (depth : Nat) (st : TravState)
    (edge : String × ForeignKey) (t : String) :
    st.visitedUp t ⊆ (processDownEdge ad cfg table pks depth st edge).visitedUp t := by
  rcases processDownEdge_cases ad cfg table pks depth st edge with
    h | ⟨n, _, _, _, ⟨_, h⟩ | ⟨_, h⟩⟩
  · rw [h]
  · rw [h]
  · rw [h]
    intro x hx
    simp only [updMap_eval]
    split
    · rename_i ht
      rw [ht] at hx
      exact Finset.mem_union_left _ hx
    · exact hx

theorem downEdge_records_mono (ad : RowAdapter) (cfg : TravConfig)
    (table : String) (pks : Finset Ident) (depth : Nat) (st : TravState)
    (edge : String × ForeignKey) (t : String) :
    st.records t ⊆ (processDownEdge ad cfg table pks depth st edge).records t := by
  rcases processDownEdge_cases ad cfg table pks depth st edge with
    h | ⟨n, _, _, _, ⟨_, h⟩ | ⟨_, h⟩⟩
  · rw [h]
  · rw [h]
    intro x hx
    simp only [updMap_eval]
    split
    · rename_i ht
      rw [ht] at hx
      exact Finset.mem_union_left _ hx
    · exact hx
  · rw [h]
    intro x hx
    simp only [updMap_eval]
    split
    · rename_i ht
      rw [ht] at hx
      exact Finset.mem_union_left _ hx
    · exact hx

theorem downEdge_queue_sub (ad : RowAdapter) (cfg : TravConfig)
    (table : String) (pks : Finset Ident) (depth : Nat) (st : TravState)
    (edge : String × ForeignKey) (q : QItem) (hq : q ∈ st.queue) :
    q ∈ (processDownEdge ad cfg table pks depth st edge).queue := by
  rcases processDownEdge_cases ad cfg table pks depth st edge with
    h | ⟨n, _, _, _, ⟨_, h⟩ | ⟨_, h⟩⟩
  · rw [h]; exact hq
  · rw [h]
    exact List.mem_append_left _ hq
  · rw [h]
    exact List.mem_append_left _ (List.mem_append_left _ hq)

theorem upEdge_establishes (ad : RowAdapter) (cfg : TravConfig)
    (table : String) (pks : Finset Ident) (depth : Nat) (st : TravState)
    (edge : String × ForeignKey) (hexc : edge.1 ∉ cfg.exclude_tables)
    (i : Ident) (hi : i ∈ pks) :
    ad.fetchFkValuesRow table edge.2 i
      ⊆ (processUpEdge ad cfg table pks depth st edge).visitedUp edge.1 := by
  have hsub : ad.fetchFkValuesRow table edge.2 i
      ⊆ pks.biUnion (ad.fetchFkValuesRow table edge.2) :=
    Finset.subset_biUnion_of_mem _ hi
  simp only [processUpEdge, if_neg hexc]
  by_cases h2 : pks.biUnion (ad.fetchFkValuesRow table edge.2) = ∅
  · rw [if_pos h2]
    intro x hx
    exact absurd (h2 ▸ hsub hx) (Finset.not_mem_empty x)
  · rw [if_neg h2]
    by_cases h3 : pks.biUnion (ad.fetchFkValuesRow table edge.2)
        \ st.visitedUp edge.1 = ∅
    · rw [if_pos h3]
      intro x hx
      have hxb := hsub hx
      by_contra hnx
      have : x ∈ pks.biUnion (ad.fetchFkValuesRow table edge.2)
          \ st.visitedUp edge.1 := Finset.mem_sdiff.mpr ⟨hxb, hnx⟩
      rw [h3] at this
      exact Finset.not_mem_empty x this
    · rw [if_neg h3]
      intro x hx
      have hxb := hsub hx
      simp only [updMap_eval, if_pos rfl]
      by_cases hv : x ∈ st.visitedUp edge.1
      · exact Finset.mem_union_left _ hv
      · exact Finset.mem_union_right _ (Finset.mem_sdiff.mpr ⟨hxb, hv⟩)

theorem upEdge_vUp_cases (ad : RowAdapter) (cfg : TravConfig) (table : String)
    (pks : Finset Ident) (depth : Nat) (st : TravState)
    (edge : String × ForeignKey) (t : String) (i : Ident)
    (hi : i ∈ (processUpEdge ad cfg table pks depth st edge).visitedUp t) :
    i ∈ st.visitedUp t
    ∨ ∃ item ∈ (processUpEdge ad cfg table pks depth st edge).queue,
        item.dir = QDir.up ∧ item.table = t ∧ i ∈ item.pks := by
  rcases processUpEdge_cases ad cfg table pks depth st edge with
    h | ⟨n, _, _, _, _, h⟩
  · rw [h] at hi
    exact Or.inl hi
  · rw [h] at hi ⊢
    simp only [updMap_eval] at hi
    by_cases ht : t = edge.1
    · rw [if_pos ht] at hi
      rcases Finset.mem_union.mp hi with hi | hi
    
      · rw [ht]
        exact Or.inl hi
      · right
        refine ⟨⟨edge.1, n, depth + 1, QDir.up⟩,
          List.mem_append_right _ (List.mem_singleton_self _), rfl, ht.symm, hi⟩
    · rw [if_neg ht] at hi
      exact Or.inl hi

theorem UpExpanded_mono (schema : SchemaGraph) (ad : RowAdapter)
    (st st' : TravState) (hmono : ∀ t, st.visitedUp t ⊆ st'.visitedUp t)
    (t : String) (i : Ident) (h : UpExpanded schema ad st t i) :
    UpExpanded schema ad st' t i := by
  intro p fk hedge
  exact (h p fk hedge).trans (hmono p)

theorem downEdge_covers (schema : SchemaGraph) (ad : RowAdapter)
    (cfg : TravConfig) (table : String) (pks : Finset Ident) (depth : Nat)
    (st : TravState) (edge : String × ForeignKey)
    (hcov : QueueCovers schema ad st) :
    QueueCovers schema ad (processDownEdge ad cfg table pks depth st edge) := by
  have hqs := downEdge_queue_sub ad cfg table pks depth st edge
  have hvm := downEdge_vUp_mono ad cfg table pks depth st edge
  rcases processDownEdge_cases ad cfg table pks depth st edge with
    h | ⟨n, _, _, _, ⟨_, h⟩ | ⟨hne, h⟩⟩
  · rw [h]
    exact hcov
  · intro t i hi
    rw [h] at hi
    rcases hcov t i hi with ⟨item, hitem, hd, ht, hp⟩ | hexp
    · exact Or.inl ⟨item, hqs item hitem, hd, ht, hp⟩
    · exact Or.inr (UpExpanded_mono schema ad st _ hvm t i hexp)
  · intro t i hi
    rw [h] at hi
    simp only [updMap_eval] at hi
    by_cases ht : t = edge.1
    · rw [if_pos ht] at hi
      rcases Finset.mem_union.mp hi with hi | hi
      · rcases hcov t i (by rw [ht]; exact hi) with ⟨item, hitem, hd, hti, hp⟩ | hexp
        · exact Or.inl ⟨item, hqs item hitem, hd, hti, hp⟩
        · exact Or.inr (UpExpanded_mono schema ad st _ hvm t i hexp)
      · left
        refine ⟨⟨edge.1, n \ st.visitedUp edge.1, depth + 1, QDir.up⟩, ?_,
          rfl, ht.symm, hi⟩
        rw [h]
        exact List.mem_append_right _ (List.mem_singleton_self _)
    · rw [if_neg ht] at hi
      rcases hcov t i hi with ⟨item, hitem, hd, hti, hp⟩ | hexp
      · exact Or.inl ⟨item, hqs item hitem, hd, hti, hp⟩
      · exact Or.inr (UpExpanded_mono schema ad st _ hvm t i hexp)

theorem upEdge_records_excluded (ad : RowAdapter) (cfg : TravConfig)
    (table : String) (pks : Finset Ident) (depth : Nat) (st : TravState)
    (edge : String × ForeignKey) (t : String) (ht : t ∈ cfg.exclude_tables) :
    (processUpEdge ad cfg table pks depth st edge).records t = st.records t := by
  rcases processUpEdge_cases ad cfg table pks depth st edge with
    h | ⟨n, _, hexc, _, _, h⟩
  · rw [h]
  · rw [h]
    simp only [updMap_eval]
    rw [if_neg]
    intro hcon
    rw [hcon] at ht
    exact hexc ht

theorem downEdge_records_excluded (ad : RowAdapter) (cfg : TravConfig)
    (table : String) (pks : Finset Ident) (depth : Nat) (st : TravState)
    (edge : String × ForeignKey) (t : String) (ht : t ∈ cfg.exclude_tables) :
    (processDownEdge ad cfg table pks depth st edge).records t
      = st.records t := by
  rcases processDownEdge_cases ad cfg table pks depth st edge with
    h | ⟨n, _, hexc, _, ⟨_, h⟩ | ⟨_, h⟩⟩ <;> rw [h]
  all_goals
    simp only [updMap_eval]
    rw [if_neg]
    intro hcon
    rw [hcon] at ht
    exact hexc ht

theorem foldUp_vUp_mono (ad : RowAdapter) (cfg : TravConfig) (table : String)
    (pks : Finset Ident) (depth : Nat) :
    ∀ (L : List (String × ForeignKey)) (st : TravState) (t : String),
      st.visitedUp t
        ⊆ (L.foldl (processUpEdge ad cfg table pks depth) st).visitedUp t := by
  intro L
  induction L with
  | nil => intro st t; exact Finset.Subset.refl _
  | cons e L ih =>
    intro st t
    exact (upEdge_vUp_mono ad cfg table pks depth st e t).trans (ih _ t)

theorem foldUp_records_mono (ad : RowAdapter) (cfg : TravConfig)
    (table : String) (pks : Finset Ident) (depth : Nat) :
    ∀ (L : List (String × ForeignKey)) (st : TravState) (t : String),
      st.records t
        ⊆ (L.foldl (processUpEdge ad cfg table pks depth) st).records t := by
  intro L
  induction L with
  | nil => intro st t; exact Finset.Subset.refl _
  | cons e L ih =>
    intro st t
    exact (upEdge_records_mono ad cfg table pks depth st e t).trans (ih _ t)

theorem foldUp_queue_sub (ad : RowAdapter) (cfg : TravConfig) (table : String)
    (pks : Finset Ident) (depth : Nat) :
    ∀ (L : List (String × ForeignKey)) (st : TravState) (q : QItem),
      q ∈ st.queue →
      q ∈ (L.foldl (processUpEdge ad cfg table pks depth) st).queue := by
  intro L
  induction L with
  | nil => intro st q hq; exact hq
  | cons e L ih =>
    intro st q hq
    exact ih _ q (upEdge_queue_sub ad cfg table pks depth st e q hq)

theorem foldDown_vUp_mono (ad : RowAdapter) (cfg : TravConfig)
    (table : String) (pks : Finset Ident) (depth : Nat) :
    ∀ (L : List (String × ForeignKey)) (st : TravState) (t : String),
      st.visitedUp t
        ⊆ (L.foldl (processDownEdge ad cfg table pks depth) st).visitedUp t := by
  intro L
  induction L with
  | nil => intro st t; exact Finset.Subset.refl _
  | cons e L ih =>
    intro st t
    exact (downEdge_vUp_mono ad cfg table pks depth st e t).trans (ih _ t)

theorem foldDown_records_mono (ad : RowAdapter) (cfg : TravConfig)
    (table : String) (pks : Finset Ident) (depth : Nat) :
    ∀ (L : List (String × ForeignKey)) (st : TravState) (t : String),
      st.records t
        ⊆ (L.foldl (processDownEdge ad cfg table pks depth) st).records t := by
  intro L
  induction L with
  | nil => intro st t; exact Finset.Subset.refl _
  | cons e L ih =>
    intro st t
    exact (downEdge_records_mono ad cfg table pks depth st e t).trans (ih _ t)

theorem foldUp_expands (ad : RowAdapter) (cfg : TravConfig) (table : String)
    (pks : Finset Ident) (depth : Nat) (hexc : cfg.exclude_tables = []) :
    ∀ (L : List (String × ForeignKey)) (st : TravState),
      ∀ e ∈ L, ∀ i ∈ pks,
        ad.fetchFkValuesRow table e.2 i
          ⊆ (L.foldl (processUpEdge ad cfg table pks depth) st).visitedUp e.1 := by
  intro L
  induction L with
  | nil => intro st e he; cases he
  | cons e0 L ih =>
    intro st e he i hi
    rcases List.mem_cons.mp he with he | he
    · subst he
      have h1 := upEdge_establishes ad cfg table pks depth st e
        (by rw [hexc]; intro h; cases h) i hi
      exact h1.trans (foldUp_vUp_mono ad cfg table pks depth L _ e.1)
    · exact ih _ e he i hi

theorem foldUp_vUp_cases (ad : RowAdapter) (cfg : TravConfig) (table : String)
    (pks : Finset Ident) (depth : Nat) :
    ∀ (L : List (String × ForeignKey)) (st : TravState) (t : String)
      (i : Ident),
      i ∈ (L.foldl (processUpEdge ad cfg table pks depth) st).visitedUp t →
      i ∈ st.visitedUp t
      ∨ ∃ item ∈ (L.foldl (processUpEdge ad cfg table pks depth) st).queue,
          item.dir = QDir.up ∧ item.table = t ∧ i ∈ item.pks := by
  intro L
  induction L with
  | nil => intro st t i hi; exact Or.inl hi
  | cons e L ih =>
    intro st t i hi
    rcases ih _ t i hi with hi1 | hw
    · rcases upEdge_vUp_cases ad cfg table pks depth st e t i hi1 with
        hi2 | ⟨item, hitem, hd, hti, hp⟩
      · exact Or.inl hi2
      · exact Or.inr ⟨item, foldUp_queue_sub ad cfg table pks depth L _
          item hitem, hd, hti, hp⟩
    · exact Or.inr hw

theorem foldDown_covers (schema : SchemaGraph) (ad : RowAdapter)
    (cfg : TravConfig) (table : String) (pks : Finset Ident) (depth : Nat) :
    ∀ (L : List (String × ForeignKey)) (st : TravState),
      QueueCovers schema ad st →
      QueueCovers schema ad
        (L.foldl (processDownEdge ad cfg table pks depth) st) := by
  intro L
  induction L with
  | nil => intro st h; exact h
  | cons e L ih =>
    intro st h
    exact ih _ (downEdge_covers schema ad cfg table pks depth st e h)

theorem foldUp_records_excluded (ad : RowAdapter) (cfg : TravConfig)
    (table : String) (pks : Finset Ident) (depth : Nat) :
    ∀ (L : List (String × ForeignKey)) (st : TravState) (t : String),
      t ∈ cfg.exclude_tables →
      (L.foldl (processUpEdge ad cfg table pks depth) st).records t
        = st.records t := by
  intro L
  induction L with
  | nil => intro st t _; rfl
  | cons e L ih =>
    intro st t ht
    simp only [List.foldl_cons]
    rw [ih _ t ht, upEdge_records_excluded ad cfg table pks depth st e t ht]

theorem foldDown_records_excluded (ad : RowAdapter) (cfg : TravConfig)
    (table : String) (pks : Finset Ident) (depth : Nat) :
    ∀ (L : List (String × ForeignKey)) (st : TravState) (t : String),
      t ∈ cfg.exclude_tables →
      (L.foldl (processDownEdge ad cfg table pks depth) st).records t
        = st.records t := by
  intro L
  induction L with
  | nil => intro st t _; rfl
  | cons e L ih =>
    intro st t ht
    simp only [List.foldl_cons]
    rw [ih _ t ht, downEdge_records_excluded ad cfg table pks depth st e t ht]

theorem upEdge_VR (ad : RowAdapter) (cfg : TravConfig) (table : String)
    (pks : Finset Ident) (depth : Nat) (st : TravState)
    (edge : String × ForeignKey)
    (hvr : ∀ t, st.visitedUp t ⊆ st.records t) :
    ∀ t, (processUpEdge ad cfg table pks depth st edge).visitedUp t
      ⊆ (processUpEdge ad cfg table pks depth st edge).records t := by
  rcases processUpEdge_cases ad cfg table pks depth st edge with
    h | ⟨n, _, _, _, _, h⟩
  · rw [h]; exact hvr
  · rw [h]
    intro t x hx
    simp only [updMap_eval] at hx ⊢
    split at hx <;> rename_i ht
    · rw [if_pos ht]
      rcases Finset.mem_union.mp hx with hx | hx
      · exact Finset.mem_union_left _ (hvr _ hx)
      · exact Finset.mem_union_right _ hx
    · rw [if_neg ht]
      exact hvr t hx

theorem downEdge_VR (ad : RowAdapter) (cfg : TravConfig) (table : String)
    (pks : Finset Ident) (depth : Nat) (st : TravState)
    (edge : String × ForeignKey)
    (hvr : ∀ t, st.visitedUp t ⊆ st.records t) :
    ∀ t, (processDownEdge ad cfg table pks depth st edge).visitedUp t
      ⊆ (processDownEdge ad cfg table pks depth st edge).records t := by
  rcases processDownEdge_cases ad cfg table pks depth st edge with
    h | ⟨n, _, _, _, ⟨_, h⟩ | ⟨_, h⟩⟩
  · rw [h]; exact hvr
  · rw [h]
    intro t x hx
    simp only [updMap_eval] at hx ⊢
    split <;> rename_i ht
    · rw [ht] at hx
      exact Finset.mem_union_left _ (hvr _ hx)
    · exact hvr t hx
  · rw [h]
    intro t x hx
    simp only [updMap_eval] at hx ⊢
    split at hx <;> rename_i ht
    · rw [if_pos ht]
      rcases Finset.mem_union.mp hx with hx | hx
      · exact Finset.mem_union_left _ (hvr _ hx)
      · exact Finset.mem_union_right _ (Finset.mem_sdiff.mp hx).1
    · rw [if_neg ht]
      exact hvr t hx

theorem foldUp_VR (ad : RowAdapter) (cfg : TravConfig) (table : String)
    (pks : Finset Ident) (depth : Nat) :
    ∀ (L : List (String × ForeignKey)) (st : TravState),
      (∀ t, st.visitedUp t ⊆ st.records t) →
      ∀ t, (L.foldl (processUpEdge ad cfg table pks depth) st).visitedUp t
        ⊆ (L.foldl (processUpEdge ad cfg table pks depth) st).records t := by
  intro L
  induction L with
  | nil => intro st h; exact h
  | cons e L ih =>
    intro st h
    exact ih _ (upEdge_VR ad cfg table pks depth st e h)

theorem foldDown_VR (ad : RowAdapter) (cfg : TravConfig) (table : String)
    (pks : Finset Ident) (depth : Nat) :
    ∀ (L : List (String × ForeignKey)) (st : TravState),
      (∀ t, st.visitedUp t ⊆ st.records t) →
      ∀ t, (L.foldl (processDownEdge ad cfg table pks depth) st).visitedUp t
        ⊆ (L.foldl (processDownEdge ad cfg table pks depth) st).records t := by
  intro L
  induction L with
  | nil => intro st h; exact h
  | cons e L ih =>
    intro st h
    exact ih _ (downEdge_VR ad cfg table pks depth st e h)

theorem dequeueUp_covers (schema : SchemaGraph) (ad : RowAdapter)
    (cfg : TravConfig) (hexc : cfg.exclude_tables = []) (table : String)
    (pks : Finset Ident) (d : Nat) (st : TravState) (rest : List QItem)
    (hq : st.queue = ⟨table, pks, d, QDir.up⟩ :: rest)
    (hcov : QueueCovers schema ad st) :
    QueueCovers schema ad
      (processUp schema ad cfg table pks d { st with queue := rest }) := by
  intro t i hi
  unfold processUp at hi ⊢
  rcases foldUp_vUp_cases ad cfg table pks d (schema.get_parents table)
      { st with queue := rest } t i hi with hi1 | hw
  · rcases hcov t i hi1 with ⟨item, hitem, hd, hti, hp⟩ | hexp
    · rw [hq] at hitem
      rcases List.mem_cons.mp hitem with hitem | hitem
      · subst hitem
        simp only at hti hp
        subst hti
        right
        intro p fk hedge
        exact foldUp_expands ad cfg table pks d hexc
          (schema.get_parents table) { st with queue := rest } (p, fk)
          hedge i hp
      · exact Or.inl ⟨item, foldUp_queue_sub ad cfg table pks d _ _ item
          hitem, hd, hti, hp⟩
    · right
      apply UpExpanded_mono schema ad st _ _ t i hexp
      intro p
      exact foldUp_vUp_mono ad cfg table pks d (schema.get_parents table)
        { st with queue := rest } p
  · exact Or.inl hw

theorem runQueue_complete (schema : SchemaGraph) (ad : RowAdapter)
    (cfg : TravConfig) (hexc : cfg.exclude_tables = []) :
    ∀ (fuel : Nat) (st stF : TravState),
      runQueue schema ad cfg fuel st = some stF →
      QueueCovers schema ad st →
      (QueueCovers schema ad stF ∧ stF.queue = []
       ∧ (∀ t, st.visitedUp t ⊆ stF.visitedUp t)
       ∧ (∀ t, st.records t ⊆ stF.records t)
       ∧ ((∀ t, st.visitedUp t ⊆ st.records t) →
           (∀ t, stF.visitedUp t ⊆ stF.records t))) := by
  intro fuel
  induction fuel with
  | zero =>
    intro st stF h hcov
    rw [runQueue] at h
    cases hqe : st.queue with
    | nil =>
      rw [hqe] at h
      simp only [Option.some.injEq] at h
      subst h
      exact ⟨hcov, hqe, fun t => Finset.Subset.refl _,
        fun t => Finset.Subset.refl _, fun hvr => hvr⟩
    | cons item rest => rw [hqe] at h; cases h
  | succ n ih =>
    intro st stF h hcov
    rw [runQueue] at h
    cases hqe : st.queue with
    | nil =>
      rw [hqe] at h
      simp only [Option.some.injEq] at h
      subst h
      exact ⟨hcov, hqe, fun t => Finset.Subset.refl _,
        fun t => Finset.Subset.refl _, fun hvr => hvr⟩
    | cons item rest =>
      rw [hqe] at h
      simp only at h
      have hcov1 : ∀ st1 : TravState, st1 = { st with queue := rest } →
          item.dir = QDir.down → QueueCovers schema ad st1 := by
        intro st1 hst1 hdir t i hi
        rw [hst1] at hi ⊢
        rcases hcov t i hi with ⟨item0, hitem0, hd0, ht0, hp0⟩ | hexp
        · rw [hqe] at hitem0
          rcases List.mem_cons.mp hitem0 with hitem0 | hitem0
          · subst hitem0
            rw [hdir] at hd0
            cases hd0
          · exact Or.inl ⟨item0, hitem0, hd0, ht0, hp0⟩
        · exact Or.inr hexp
      split at h
      · -- depth guard: item is a DOWN item, dropped
        rename_i hguard
        have hcov2 := hcov1 _ rfl hguard.2
        obtain ⟨hA, hB, hC, hD, hE⟩ := ih _ _ h hcov2
        exact ⟨hA, hB, hC, hD, hE⟩
      · rename_i hguard
        cases hdir : item.dir with
        | up =>
          rw [hdir] at h
          simp only at h
          have hqeq : st.queue
              = ⟨item.table, item.pks, item.depth, QDir.up⟩ :: rest := by
            rw [hqe]
            congr 1
            cases item
            simp only at hdir
            rw [hdir]
          have hcov2 := dequeueUp_covers schema ad cfg hexc item.table
            item.pks item.depth st rest hqeq hcov
          obtain ⟨hA, hB, hC, hD, hE⟩ := ih _ _ h hcov2
          refine ⟨hA, hB, ?_, ?_, ?_⟩
          · intro t
            refine Finset.Subset.trans ?_ (hC t)
            exact foldUp_vUp_mono ad cfg item.table item.pks item.depth
              (schema.get_parents item.table) { st with queue := rest } t
          · intro t
            refine Finset.Subset.trans ?_ (hD t)
            exact foldUp_records_mono ad cfg item.table item.pks item.depth
              (schema.get_parents item.table) { st with queue := rest } t
          · intro hvr
            apply hE
            exact foldUp_VR ad cfg item.table item.pks item.depth
              (schema.get_parents item.table) { st with queue := rest } hvr
        | down =>
          rw [hdir] at h
          simp only at h
          have hcov2 : QueueCovers schema ad
              (processDown schema ad cfg item.table item.pks item.depth
                { st with queue := rest }) := by
            apply foldDown_covers
            exact hcov1 _ rfl hdir
          obtain ⟨hA, hB, hC, hD, hE⟩ := ih _ _ h hcov2
          refine ⟨hA, hB, ?_, ?_, ?_⟩
          · intro t
            refine Finset.Subset.trans ?_ (hC t)
            exact foldDown_vUp_mono ad cfg item.table item.pks item.depth
              (schema.get_children item.table) { st with queue := rest } t
          · intro t
            refine Finset.Subset.trans ?_ (hD t)
            exact foldDown_records_mono ad cfg item.table item.pks item.depth
              (schema.get_children item.table) { st with queue := rest } t
          · intro hvr
            apply hE
            exact foldDown_VR ad cfg item.table item.pks item.depth
              (schema.get_children item.table) { st with queue := rest } hvr

theorem runQueue_records_excluded (schema : SchemaGraph) (ad : RowAdapter)
    (cfg : TravConfig) :
    ∀ (fuel : Nat) (st stF : TravState),
      runQueue schema ad cfg fuel st = some stF →
      ∀ t ∈ cfg.exclude_tables, stF.records t = st.records t := by
  intro fuel
  induction fuel with
  | zero =>
    intro st stF h t ht
    rw [runQueue] at h
    cases hqe : st.queue with
    | nil =>
      rw [hqe] at h
      simp only [Option.some.injEq] at h
      subst h
      rfl
    | cons item rest => rw [hqe] at h; cases h
  | succ n ih =>
    intro st stF h t ht
    rw [runQueue] at h
    cases hqe : st.queue with
    | nil =>
      rw [hqe] at h
      simp only [Option.some.injEq] at h
      subst h
      rfl
    | cons item rest =>
      rw [hqe] at h
      simp only at h
      split at h
      · exact ih _ _ h t ht
      · cases hdir : item.dir with
        | up =>
          rw [hdir] at h
          simp only at h
          rw [ih _ _ h t ht]
          exact foldUp_records_excluded ad cfg item.table item.pks item.depth
            (schema.get_parents item.table) { st with queue := rest } t ht
        | down =>
          rw [hdir] at h
          simp only at h
          rw [ih _ _ h t ht]
          exact foldDown_records_excluded ad cfg item.table item.pks
            item.depth (schema.get_children item.table)
            { st with queue := rest } t ht

theorem processPassthrough_excluded (schema : SchemaGraph) (ad : RowAdapter)
    (cfg : TravConfig) (records : String → Finset Ident) (t : String)
    (ht : t ∈ cfg.exclude_tables) :
    processPassthrough schema ad cfg records t = records t := by
  unfold processPassthrough
  generalize cfg.passthrough_tables = pts
  induction pts generalizing records with
  | nil => rfl
  | cons p ps ih =>
    simp only [List.foldl_cons]
    rw [ih]
    by_cases hp : p ∈ cfg.exclude_tables
    · simp only [if_pos hp]
    · have hne : t ≠ p := fun hcon => hp (hcon ▸ ht)
      simp only [if_neg hp]
      split
      · rfl
      · cases hgt : schema.get_table p with
        | none => rfl
        | some tinfo =>
          dsimp only
          split
          · rfl
          · split
            · rfl
            · simp only [updMap_eval]
              rw [if_neg hne]

/-- C10: a table listed in `exclude_tables` never has row identities added
by UP traversal, DOWN traversal or passthrough processing — for an excluded
non-seed table the resulting record set is empty, with the single exception
of the seed table itself, whose seed identities are recorded
unconditionally before the BFS begins, even when the seed table is
excluded. -/
theorem c10_exclude_tables (schema : SchemaGraph) (ad : RowAdapter)
    (seedTable : String) (seedPks : Finset Ident) (cfg : TravConfig)
    (fuel : Nat) (recs : String → Finset Ident)
    (h : traverse schema ad seedTable seedPks cfg fuel = some recs) :
    (∀ t, t ∈ cfg.exclude_tables → t ≠ seedTable → recs t = ∅)
    ∧ (seedTable ∈ cfg.exclude_tables → recs seedTable = seedPks) := by
  unfold traverse at h
  cases hrq : runQueue schema ad cfg fuel (initTravState seedTable seedPks cfg) with
  | none => rw [hrq] at h; cases h
  | some stF =>
    rw [hrq] at h
    simp only [Option.map_some', Option.some.injEq] at h
    subst h
    have hbase := runQueue_records_excluded schema ad cfg fuel _ _ hrq
    constructor
    · intro t ht htne
      rw [processPassthrough_excluded schema ad cfg _ t ht, hbase t ht]
      simp only [initTravState, updMap_eval]
      rw [if_neg htne]
    · intro hseed
      rw [processPassthrough_excluded schema ad cfg _ seedTable hseed,
        hbase seedTable hseed]
      simp [initTravState, updMap_eval]

theorem upEdge_sound (schema : SchemaGraph) (ad : RowAdapter)
    (seedTable : String) (seedPks : Finset Ident) (cfg : TravConfig)
    (table : String) (pks : Finset Ident) (depth : Nat) (st : TravState)
    (edge : String × ForeignKey) (hedge : edge ∈ schema.get_parents table)
    (hpks : ∀ i ∈ pks, UpReachable schema ad seedTable seedPks table i)
    (hs : SoundState schema ad seedTable seedPks st) :
    SoundState schema ad seedTable seedPks
      (processUpEdge ad cfg table pks depth st edge) := by
  obtain ⟨hrec, hvis, hque⟩ := hs
  rcases processUpEdge_cases ad cfg table pks depth st edge with
    h | ⟨n, hne, hexc, hdef, hbne, h⟩
  · rw [h]; exact ⟨hrec, hvis, hque⟩
  · have hnReach : ∀ j ∈ n, UpReachable schema ad seedTable seedPks edge.1 j := by
      intro j hj
      rw [hdef] at hj
      have hjb := (Finset.mem_sdiff.mp hj).1
      obtain ⟨i, hi, hji⟩ := Finset.mem_biUnion.mp hjb
      exact UpReachable.step table i edge.1 edge.2 j (hpks i hi) hedge hji
    rw [h]
    refine ⟨?_, ?_, ?_⟩
    · intro t i hi
      simp only [updMap_eval] at hi
      split at hi
      · rename_i ht
        subst ht
        rcases Finset.mem_union.mp hi with hi | hi
        · exact hrec _ i hi
        · exact hnReach i hi
      · exact hrec t i hi
    · intro t i hi
      simp only [updMap_eval] at hi
      split at hi
      · rename_i ht
        subst ht
        rcases Finset.mem_union.mp hi with hi | hi
        · exact hvis _ i hi
        · exact hnReach i hi
      · exact hvis t i hi
    · intro item hitem hdir i hi
      simp only at hitem
      rcases List.mem_append.mp hitem with hitem | hitem
      · exact hque item hitem hdir i hi
      · have : item = ⟨edge.1, n, depth + 1, QDir.up⟩ := by simpa using hitem
        subst this
        exact hnReach i hi

theorem foldUp_sound (schema : SchemaGraph) (ad : RowAdapter)
    (seedTable : String) (seedPks : Finset Ident) (cfg : TravConfig)
    (table : String) (pks : Finset Ident) (depth : Nat) :
    ∀ (L : List (String × ForeignKey)) (st : TravState),
      (∀ e ∈ L, e ∈ schema.get_parents table) →
      (∀ i ∈ pks, UpReachable schema ad seedTable seedPks table i) →
      SoundState schema ad seedTable seedPks st →
      SoundState schema ad seedTable seedPks
        (L.foldl (processUpEdge ad cfg table pks depth) st) := by
  intro L
  induction L with
  | nil => intro st _ _ hs; exact hs
  | cons e L ih =>
    intro st hL hpks hs
    exact ih _ (fun e' he' => hL e' (List.mem_cons_of_mem _ he')) hpks
      (upEdge_sound schema ad seedTable seedPks cfg table pks depth st e
        (hL e (List.mem_cons_self _ _)) hpks hs)

theorem runQueue_sound (schema : SchemaGraph) (ad : RowAdapter)
    (seedTable : String) (seedPks : Finset Ident) (cfg : TravConfig)
    (hdepth : cfg.max_depth = 0) :
    ∀ (fuel : Nat) (st stF : TravState),
      runQueue schema ad cfg fuel st = some stF →
      SoundState schema ad seedTable seedPks st →
      SoundState schema ad seedTable seedPks stF := by
  intro fuel
  induction fuel with
  | zero =>
    intro st stF h hs
    rw [runQueue] at h
    cases hqe : st.queue with
    | nil =>
      rw [hqe] at h
      simp only [Option.some.injEq] at h
      subst h
      exact hs
    | cons item rest => rw [hqe] at h; cases h
  | succ n ih =>
    intro st stF h hs
    obtain ⟨hrec, hvis, hque⟩ := hs
    rw [runQueue] at h
    cases hqe : st.queue with
    | nil =>
      rw [hqe] at h
      simp only [Option.some.injEq] at h
      subst h
      exact ⟨hrec, hvis, hque⟩
    | cons item rest =>
      rw [hqe] at h
      simp only at h
      have hs1 : SoundState schema ad seedTable seedPks
          { st with queue := rest } := by
        refine ⟨hrec, hvis, ?_⟩
        intro item0 hitem0 hdir0 i hi
        exact hque item0 (by rw [hqe]; exact List.mem_cons_of_mem _ hitem0)
          hdir0 i hi
      split at h
      · exact ih _ _ h hs1
      · rename_i hguard
        cases hdir : item.dir with
        | up =>
          rw [hdir] at h
          simp only at h
          apply ih _ _ h
          apply foldUp_sound schema ad seedTable seedPks cfg item.table
            item.pks item.depth (schema.get_parents item.table) _
            (fun e he => he) _ hs1
          intro i hi
          exact hque item (by rw [hqe]; exact List.mem_cons_self _ _) hdir i hi
        | down =>
          exfalso
          apply hguard
          rw [hdepth, hdir]
          exact ⟨Nat.zero_le _, rfl⟩

theorem init_sound (schema : SchemaGraph) (ad : RowAdapter)
    (seedTable : String) (seedPks : Finset Ident) (cfg : TravConfig) :
    SoundState schema ad seedTable seedPks
      (initTravState seedTable seedPks cfg) := by
  have hbase : ∀ t i,
      i ∈ (if t = seedTable then seedPks else (∅ : Finset Ident)) →
      UpReachable schema ad seedTable seedPks t i := by
    intro t i hi
    split at hi
    · rename_i ht
      subst ht
      exact UpReachable.seed i hi
    · exact absurd hi (Finset.not_mem_empty i)
  refine ⟨?_, ?_, ?_⟩
  · intro t i hi
    exact hbase t i hi
  · intro t i hi
    exact hbase t i hi
  · intro item hitem hdir i hi
    simp only [initTravState] at hitem
    rcases List.mem_append.mp hitem with hitem | hitem
    · split at hitem
      · have : item = ⟨seedTable, seedPks, 0, QDir.up⟩ := by simpa using hitem
        subst this
        exact UpReachable.seed i hi
      · cases hitem
    · split at hitem
      · have : item = ⟨seedTable, seedPks, 0, QDir.down⟩ := by
          simpa using hitem
        subst this
        cases hdir
      · cases hitem

theorem init_covers (schema : SchemaGraph) (ad : RowAdapter)
    (seedTable : String) (seedPks : Finset Ident) (cfg : TravConfig)
    (hdir : cfg.direction = TraversalDirection.both) :
    QueueCovers schema ad (initTravState seedTable seedPks cfg) := by
  intro t i hi
  simp only [initTravState, updMap_eval] at hi
  split at hi
  · rename_i ht
    subst ht
    left
    refine ⟨⟨t, seedPks, 0, QDir.up⟩, ?_, rfl, rfl, hi⟩
    simp only [initTravState, hdir]
    exact List.mem_append_left _ (List.mem_singleton_self _)
  · exact absurd hi (Finset.not_mem_empty i)

theorem reach_sub_visited (schema : SchemaGraph) (ad : RowAdapter)
    (seedTable : String) (seedPks : Finset Ident) (stF : TravState)
    (hcov : QueueCovers schema ad stF) (hq : stF.queue = [])
    (hseed : seedPks ⊆ stF.visitedUp seedTable) :
    ∀ t i, UpReachable schema ad seedTable seedPks t i →
      i ∈ stF.visitedUp t := by
  intro t i hr
  induction hr with
  | seed i hi => exact hseed hi
  | step t i p fk j hreach hedge hj ih =>
    rcases hcov t i ih with ⟨item, hitem, _, _, _⟩ | hexp
    · rw [hq] at hitem
      cases hitem
    · exact hexp p fk hedge hj

theorem processPassthrough_nil (schema : SchemaGraph) (ad : RowAdapter)
    (cfg : TravConfig) (hp : cfg.passthrough_tables = [])
    (records : String → Finset Ident) :
    processPassthrough schema ad cfg records = records := by
  unfold processPassthrough
  rw [hp]
  rfl

/-- C2: UP (parent-direction) expansion is never stopped by the depth bound
— for every max_depth, every transitively UP-reachable parent row is in the
result of a completed traversal — while DOWN expansion stops at max_depth;
in particular, with max_depth = 0 the discovered record set is *exactly*
the seed rows plus all transitively reachable parent rows and contains no
child rows (every depth-0 DOWN queue item is dropped by the
`depth >= max_depth and direction == "down"` guard, so nothing is ever
discovered through a child edge).  Stated for direction BOTH with no
excluded and no passthrough tables. -/
theorem c2_up_unbounded_depth_zero_exact (schema : SchemaGraph)
    (ad : RowAdapter) (seedTable : String) (seedPks : Finset Ident)
    (maxD fuel : Nat) (recs : String → Finset Ident)
    (h : traverse schema ad seedTable seedPks
        ⟨maxD, TraversalDirection.both, [], []⟩ fuel = some recs) :
    (∀ t i, UpReachable schema ad seedTable seedPks t i → i ∈ recs t)
    ∧ (maxD = 0 →
       ∀ t i, i ∈ recs t ↔ UpReachable schema ad seedTable seedPks t i) := by
  unfold traverse at h
  cases hrq : runQueue schema ad ⟨maxD, TraversalDirection.both, [], []⟩ fuel
      (initTravState seedTable seedPks
        ⟨maxD, TraversalDirection.both, [], []⟩) with
  | none => rw [hrq] at h; cases h
  | some stF =>
    rw [hrq] at h
    simp only [Option.map_some', Option.some.injEq] at h
    rw [processPassthrough_nil schema ad _ rfl] at h
    subst h
    obtain ⟨hcov, hqnil, hvmono, hrmono, hvr⟩ :=
      runQueue_complete schema ad _ rfl fuel _ _ hrq
        (init_covers schema ad seedTable seedPks _ rfl)
    have hseedsub : seedPks ⊆ stF.visitedUp seedTable := by
      refine Finset.Subset.trans ?_ (hvmono seedTable)
      simp only [initTravState, updMap_eval, if_pos rfl]
      exact Finset.Subset.refl _
    have hVRF : ∀ t, stF.visitedUp t ⊆ stF.records t := by
      apply hvr
      intro t
      simp only [initTravState, updMap_eval]
      exact Finset.Subset.refl _
    have hcomplete : ∀ t i, UpReachable schema ad seedTable seedPks t i →
        i ∈ stF.records t := by
      intro t i hr
      exact hVRF t (reach_sub_visited schema ad seedTable seedPks stF hcov
        hqnil hseedsub t i hr)
    refine ⟨hcomplete, ?_⟩
    intro hd0 t i
    constructor
    · intro hi
      have hsF := runQueue_sound schema ad seedTable seedPks _ hd0 fuel _ _
        hrq (init_sound schema ad seedTable seedPks _)
      exact hsF.1 t i hi
    · exact hcomplete t i

theorem c2_witness :
    ∃ recs, traverse ordersUsersSchema demoAdapter ("orders")
        {([1] : Ident)} ⟨0, TraversalDirection.both, [], []⟩ 10 = some recs
      ∧ (∀ t i, UpReachable ordersUsersSchema demoAdapter ("orders")
          {([1] : Ident)} t i → i ∈ recs t)
      ∧ (∀ t i, i ∈ recs t ↔ UpReachable ordersUsersSchema demoAdapter
          ("orders") {([1] : Ident)} t i) := by
  have hs : (traverse ordersUsersSchema demoAdapter ("orders")
      {([1] : Ident)} ⟨0, TraversalDirection.both, [], []⟩ 10).isSome
      = true := by
    rfl
  refine ⟨Option.get _ hs, (Option.some_get hs).symm, ?_, ?_⟩
  · exact (c2_up_unbounded_depth_zero_exact ordersUsersSchema demoAdapter
      ("orders") {([1] : Ident)} 0 10 _ (Option.some_get hs).symm).1
  · exact (c2_up_unbounded_depth_zero_exact ordersUsersSchema demoAdapter
      ("orders") {([1] : Ident)} 0 10 _ (Option.some_get hs).symm).2 rfl

theorem c10_witness :
    ∃ recs, traverse ordersUsersSchema demoAdapter ("orders")
        {([1] : Ident)} ⟨1, TraversalDirection.both, [("users")], []⟩ 10
        = some recs
      ∧ recs ("users") = ∅ := by
  have hs : (traverse ordersUsersSchema demoAdapter ("orders")
      {([1] : Ident)} ⟨1, TraversalDirection.both, [("users")], []⟩
      10).isSome = true := by
    rfl
  refine ⟨Option.get _ hs, (Option.some_get hs).symm, ?_⟩
  exact (c10_exclude_tables ordersUsersSchema demoAdapter ("orders")
      {([1] : Ident)} _ 10 _ (Option.some_get hs).symm).1 ("users")
    (by decide) (by decide)

end Dbslice
